import Mathlib

/-!
Verification of the map-routing program (`src/main.py`): a shallow
embedding of its graph store, shortest-path (Dijkstra), minimum
spanning forest (Prim over the undirected projection), nearest-node
lookup and benchmark-timing routines, with correctness theorems for
each specified behaviour.  Library-backed operations
(`networkx` shortest path / minimum spanning tree / `to_undirected`,
`osmnx` nearest node) are modelled from the specification, as noted on
each definition; everything else is translated directly from the
source.  Machine time is abstracted as a stream of `perf_counter`
readings.
-/

/-- Error kinds of the specification, plus the Python-level
division-by-zero failure that the source benchmark code can raise. -/
inductive Err where
  | emptyGraph
  | unknownNode
  | insufficientNodes
  | invalidRepetitionCount
  | zeroDivisionError
  deriving DecidableEq, Repr

/-- A graph node: opaque identifier plus planar coordinates
(`x` = longitude, `y` = latitude). -/
structure Node where
  id : ℕ
  x : ℚ
  y : ℚ
  deriving DecidableEq, Repr

/-- A directed weighted edge between node identifiers. -/
structure Edge where
  src : ℕ
  dst : ℕ
  weight : ℚ
  deriving DecidableEq, Repr

/-- A weighted directed graph: nodes in construction (insertion) order and
a list of directed edges (parallel edges are allowed). -/
structure GraphStore where
  nodes : List Node
  edges : List Edge
  deriving DecidableEq, Repr

/-- The node identifiers of a store, in construction order. -/
def GraphStore.ids (g : GraphStore) : List ℕ :=
  g.nodes.map Node.id

/-- Every edge endpoint refers to a node of the store, and node
identifiers are unique: the GraphStore construction invariant. -/
def GraphStore.WF (g : GraphStore) : Prop :=
  g.ids.Nodup ∧ ∀ e ∈ g.edges, e.src ∈ g.ids ∧ e.dst ∈ g.ids

/-- All edge weights are non-negative. -/
def GraphStore.Nonneg (g : GraphStore) : Prop :=
  ∀ e ∈ g.edges, 0 ≤ e.weight

/-- Whether some directed edge runs from `u` to `v`. -/
def hasEdge (g : GraphStore) (u v : ℕ) : Bool :=
  g.edges.any fun e => e.src == u && e.dst == v

/-- The weights of all directed edges from `u` to `v`. -/
def edgesBetween (g : GraphStore) (u v : ℕ) : List ℚ :=
  (g.edges.filter fun e => e.src == u && e.dst == v).map Edge.weight

/-- Minimum of a list of rationals, `none` on the empty list. -/
def listMin : List ℚ → Option ℚ
  | [] => none
  | x :: xs =>
    match listMin xs with
    | none => some x
    | some m => some (min x m)

/-- The weight of the cheapest directed edge from `u` to `v`
(`0` when there is none; only used under `hasEdge`). -/
def minW (g : GraphStore) (u v : ℕ) : ℚ :=
  match listMin (edgesBetween g u v) with
  | some w => w
  | none => 0

/-- Consecutive elements of the list are joined by directed edges. -/
def chain (g : GraphStore) : List ℕ → Bool
  | u :: v :: rest => hasEdge g u v && chain g (v :: rest)
  | _ => true

/-- `p` is a directed path from `o` to `d`: nonempty, starts at `o`,
ends at `d`, consecutive nodes joined by directed edges. -/
def isPathFrom (g : GraphStore) (o d : ℕ) (p : List ℕ) : Bool :=
  (p.head? == some o) && (p.getLast? == some d) && chain g p

/-- Total weight of a node sequence: the sum, over consecutive pairs, of
the cheapest directed edge joining them (a traversal always takes the
cheapest of the parallel edges). -/
def pathWeight (g : GraphStore) : List ℕ → ℚ
  | u :: v :: rest => minW g u v + pathWeight g (v :: rest)
  | _ => 0

/-- Squared planar distance from node `n` to the query point
(`x` = longitude, `y` = latitude).  The distance metric used by the
nearest-node search, consistently: squared Euclidean distance in the
coordinate plane. -/
def dist2 (n : Node) (lat lon : ℚ) : ℚ :=
  (n.x - lon) * (n.x - lon) + (n.y - lat) * (n.y - lat)

/-- Linear scan keeping the first node attaining the minimum distance. -/
def nearestAux (lat lon : ℚ) : List Node → Node → Node
  | [], best => best
  | n :: rest, best =>
    nearestAux lat lon rest (if dist2 n lat lon < dist2 best lat lon then n else best)

/-- Modelled from the spec: `nearest` / `obtener_nodo_por_coordenadas`
(the source delegates to `ox.distance.nearest_nodes`, not part of this
repository).  Scans every node of the store and returns the identifier of
the node closest to the query point under `dist2`, ties broken in favor
of the first-inserted node; fails with `EmptyGraph` on a store without
nodes. -/
def obtener_nodo_por_coordenadas (g : GraphStore) (lat lon : ℚ) : Except Err ℕ :=
  match g.nodes with
  | [] => .error .emptyGraph
  | n :: rest => .ok (nearestAux lat lon rest n).id

/-- The unordered pair `{u, v}` in normalized (sorted) form. -/
def normPair (u v : ℕ) : ℕ × ℕ :=
  if u ≤ v then (u, v) else (v, u)

/-- The normalized endpoint pairs of all edges, without duplicates. -/
def pairList (g : GraphStore) : List (ℕ × ℕ) :=
  (g.edges.map fun e => normPair e.src e.dst).dedup

/-- The smallest weight among all directed edges between `u` and `v`, in
either direction (`0` when there is none). -/
def uW (g : GraphStore) (u v : ℕ) : ℚ :=
  match listMin (edgesBetween g u v ++ edgesBetween g v u) with
  | some w => w
  | none => 0

/-- The one or two directed edges a normalized pair contributes to the
undirected projection. -/
def projEdges (g : GraphStore) (p : ℕ × ℕ) : List Edge :=
  if p.1 = p.2 then [⟨p.1, p.2, uW g p.1 p.2⟩]
  else [⟨p.1, p.2, uW g p.1 p.2⟩, ⟨p.2, p.1, uW g p.1 p.2⟩]

/-- Modelled from the spec: `undirectedProjection` (the source delegates
to `networkx.DiGraph.to_undirected`, not part of this repository).  Every
directed edge becomes bidirectional; for each unordered pair the smaller
of the available weights is kept; deterministic (a pure function of the
store). -/
def undirectedProjection (g : GraphStore) : GraphStore :=
  { nodes := g.nodes, edges := (pairList g).flatMap (projEdges g) }

/-- The sub-store of `g` on the node list `ns`: keeps only the edges
with both endpoints among the identifiers of `ns` (the networkx
`subgraph` call at src/main.py line 158). -/
def substoreOn (g : GraphStore) (ns : List Node) : GraphStore :=
  { nodes := ns,
    edges := g.edges.filter fun e =>
      (ns.map Node.id).contains e.src && (ns.map Node.id).contains e.dst }

/-- Modelled from the spec: `inducedSubstore(nodeOrder, count)` (the
source only ever builds sub-stores through the library call
`Start.subgraph(nodos[:i])`; the validating operation is specified in
§4.1).  Takes the first `count` entries of the caller-supplied ordering
and restricts the store to them; fails with `InsufficientNodes` when
`count` is below 2 or exceeds the number of available nodes. -/
def inducedSubstore (g : GraphStore) (order : List Node) (count : ℕ) :
    Except Err GraphStore :=
  if count < 2 ∨ order.length < count then .error .insufficientNodes
  else .ok (substoreOn g (order.take count))

/-- The wall-clock durations of `n` consecutive measured invocations:
reading `k + 2 i` is taken just before, and reading `k + 2 i + 1` just
after, invocation `i`, where `clock` abstracts the stream of successive
`time.perf_counter()` readings and `k` is the index of the next unused
reading. -/
def durations (clock : ℕ → ℚ) (k : ℕ) (n : ℕ) : List ℚ :=
  (List.range n).map fun i => clock (k + 2 * i + 1) - clock (k + 2 * i)

/-- `medir_promedio_tiempo` from the source, over the abstracted clock:
runs the measured operation once per iteration of
`range(repeticiones)` (empty for a non-positive count), records one
duration per invocation, and returns `sum(tiempos) / len(tiempos)`
together with the number of invocations performed.  When no iteration
ran, `len(tiempos)` is zero and the division raises Python's
`ZeroDivisionError`. -/
def medir_promedio_tiempo (clock : ℕ → ℚ) (k : ℕ) (repeticiones : ℤ) :
    Except Err (ℚ × ℕ) :=
  let tiempos := durations clock k repeticiones.toNat
  if tiempos.length = 0 then .error .zeroDivisionError
  else .ok (tiempos.sum / (tiempos.length : ℚ), tiempos.length)

/-- The three parallel sequences produced by the benchmark harness:
sub-store sizes, average Dijkstra times, average Prim times. -/
structure TimingSeries where
  tamanos : List ℕ
  tiempos_dijkstra : List ℚ
  tiempos_prim : List ℚ
  deriving DecidableEq, Repr

/-- Python's `range(start, stop, step)` for a positive step. -/
def pyRange (start stop step : ℕ) : List ℕ :=
  (List.range ((stop - start + step - 1) / step)).map fun j => start + step * j

/-- The average of five consecutive measured durations starting at clock
index `k`: the value produced by a successful five-repetition
measurement. -/
def promedio5 (clock : ℕ → ℚ) (k : ℕ) : ℚ :=
  (durations clock k 5).sum / 5

/-- The value of a measurement outcome: the average on success, `0` on
the (unreachable for five repetitions) error case. -/
def valorMedicion : Except Err (ℚ × ℕ) → ℚ
  | .ok (m, _) => m
  | .error _ => 0

/-- The loop body of `medir_tiempos_de_ejecucion` (src lines 157-172)
over the remaining thresholds, with `k` the next unused clock reading.
Each kept threshold performs two five-repetition measurements (first the
Dijkstra call, then the Prim call), consuming ten clock readings each,
and records the arguments (`origen`, `destino`) passed to the timed
shortest-path invocation; the timed calls' results are discarded by the
source, so only the clock readings and the recorded arguments are
observable. -/
def runSeriesAux (g : GraphStore) (clock : ℕ → ℚ) :
    List ℕ → ℕ → TimingSeries × List (ℕ × ℕ)
  | [], _ => (⟨[], [], []⟩, [])
  | i :: rest, k =>
    let sub := substoreOn g (g.nodes.take i)
    if sub.nodes.length < 2 then runSeriesAux g clock rest k
    else
      let origen := sub.ids.headD 0
      let destino := sub.ids.getLastD 0
      let td := valorMedicion (medir_promedio_tiempo clock k 5)
      let tp := valorMedicion (medir_promedio_tiempo clock (k + 10) 5)
      let rec_rest := runSeriesAux g clock rest (k + 20)
      (⟨sub.nodes.length :: rec_rest.1.tamanos,
        td :: rec_rest.1.tiempos_dijkstra,
        tp :: rec_rest.1.tiempos_prim⟩,
       (origen, destino) :: rec_rest.2)

/-- `medir_tiempos_de_ejecucion` from the source (src lines 148-174),
on an already-constructed store (graph acquisition is the excluded
provider) and over the abstracted clock: iterates thresholds
`range(10, min(100, len(nodos)), 10)`, builds the induced sub-store of
each threshold's prefix of the node order, skips sub-stores with fewer
than 2 nodes, times Dijkstra and Prim on each kept sub-store (5
repetitions each, origin and destination the sub-store's first and last
node), and returns the three parallel sequences (plus the record of
origin/destination arguments used). -/
def medir_tiempos_de_ejecucion (g : GraphStore) (clock : ℕ → ℚ) :
    TimingSeries × List (ℕ × ℕ) :=
  runSeriesAux g clock (pyRange 10 (min 100 g.nodes.length) 10) 0

/-- Position-annotated copy of a list, indices starting at `j`. -/
def withIdx : ℕ → List ℕ → List (ℕ × ℕ)
  | _, [] => []
  | j, i :: rest => (j, i) :: withIdx (j + 1) rest

/-- An eleven-node store with no edges, used to refute the twelve-node
threshold clause of the benchmark-series claim. -/
def g11 : GraphStore :=
  { nodes := (List.range 11).map fun i => ⟨i, 0, 0⟩, edges := [] }

/-- The result alternatives of the shortest-path engine: a found path
(list of node identifiers, origin first) or the explicit `NoPathFound`
outcome (the source returns `None` when `networkx` raises
`NetworkXNoPath`). -/
inductive PathResult where
  | found (ruta : List ℕ)
  | noPathFound
  deriving DecidableEq, Repr

/-- A tentative-distance record of the Dijkstra relaxation: a node, its
best known distance from the origin, and the path realizing it, stored
reversed (the entry's node first, the origin last). -/
structure DEntry where
  node : ℕ
  dist : ℚ
  path : List ℕ
  deriving DecidableEq, Repr

/-- The first entry of minimal distance (insertion-order tie-break: an
earlier entry wins over a later entry of equal distance). -/
def pickMinD : List DEntry → Option DEntry
  | [] => none
  | e :: rest =>
    match pickMinD rest with
    | none => some e
    | some m => some (if m.dist < e.dist then m else e)

/-- Relaxation of one candidate entry into the frontier: ignored when
its node is already settled; otherwise it replaces a strictly worse
frontier entry for the same node, or is appended as a new frontier
entry. -/
def upsert (settled : List DEntry) (front : List DEntry) (cand : DEntry) :
    List DEntry :=
  if (settled.map DEntry.node).contains cand.node then front
  else if (front.map DEntry.node).contains cand.node then
    front.map fun f => if f.node = cand.node ∧ cand.dist < f.dist then cand else f
  else front ++ [cand]

/-- Relax every outgoing edge of the newly settled node `u` (distance
`du`, reversed path `pu`) into the frontier. -/
def relaxAll (settled : List DEntry) (u : ℕ) (du : ℚ) (pu : List ℕ)
    (edges : List Edge) (front : List DEntry) : List DEntry :=
  edges.foldl (fun front e =>
    if e.src == u then upsert settled front ⟨e.dst, du + e.weight, e.dst :: pu⟩
    else front) front

/-- The Dijkstra main loop: repeatedly settle the minimal frontier
entry and relax its outgoing edges; the fuel (number of nodes) bounds
the number of settlements, each of which visits a fresh node. -/
def dijkstraLoop (g : GraphStore) : ℕ → List DEntry → List DEntry → List DEntry
  | 0, settled, _ => settled
  | fuel + 1, settled, front =>
    match pickMinD front with
    | none => settled
    | some m =>
      let front1 := (front.filter fun f => f.node != m.node)
      let front2 := relaxAll (settled ++ [m]) m.node m.dist m.path g.edges front1
      dijkstraLoop g fuel (settled ++ [m]) front2

/-- Modelled from the spec: `shortestPath` / `ruta_optima_dijkstra`
(the source delegates the search to `networkx.shortest_path` with
Dijkstra weights and maps the no-path exception to `None`; the library
code is not part of this repository).  Standard Dijkstra relaxation
over the directed store with a stable insertion-order tie-break; fails
with `UnknownNode` when either endpoint is not in the store, returns
`NoPathFound` when no directed path exists, and otherwise the found
path, origin first. -/
def ruta_optima_dijkstra (g : GraphStore) (origen destino : ℕ) :
    Except Err PathResult :=
  if origen ∈ g.ids ∧ destino ∈ g.ids then
    match (dijkstraLoop g g.nodes.length [] [⟨origen, 0, [origen]⟩]).find?
        (fun s => s.node == destino) with
    | some s => .ok (.found s.path.reverse)
    | none => .ok .noPathFound
  else .error .unknownNode

/-- The Dijkstra loop invariant, reachability part: every settled and
frontier entry carries a real path of weight at most its distance;
settled and frontier node sets are disjoint and duplicate-free and lie
in the store; the origin is settled or on the frontier with distance at
most zero; and every edge out of a settled node leads to a settled node
or is covered by a frontier entry within the relaxed bound. -/
structure DInvB (g : GraphStore) (o : ℕ) (S F : List DEntry) : Prop where
  soundS : ∀ s ∈ S, isPathFrom g o s.node s.path.reverse = true ∧
    pathWeight g s.path.reverse ≤ s.dist
  soundF : ∀ f ∈ F, isPathFrom g o f.node f.path.reverse = true ∧
    pathWeight g f.path.reverse ≤ f.dist
  disj : ∀ s ∈ S, ∀ f ∈ F, s.node ≠ f.node
  nodupF : (F.map DEntry.node).Nodup
  nodupS : (S.map DEntry.node).Nodup
  keysS : ∀ s ∈ S, s.node ∈ g.ids
  keysF : ∀ f ∈ F, f.node ∈ g.ids
  origin : (∃ s ∈ S, s.node = o) ∨ (∃ f ∈ F, f.node = o ∧ f.dist ≤ 0)
  cover : ∀ s ∈ S, ∀ e ∈ g.edges, e.src = s.node →
    (e.dst ∈ S.map DEntry.node ∨ ∃ f ∈ F, f.node = e.dst ∧ f.dist ≤ s.dist + e.weight)

/-- The Dijkstra loop invariant, optimality part: every settled distance
is a lower bound on the weight of every path from the origin to the
settled node. -/
def DInvM (g : GraphStore) (o : ℕ) (S : List DEntry) : Prop :=
  ∀ s ∈ S, ∀ q, isPathFrom g o s.node q = true → s.dist ≤ pathWeight g q

/-- A forest edge recorded by Prim: the already-visited endpoint `x`,
the newly visited endpoint `y`, and the weight used. -/
structure PEdge where
  x : ℕ
  y : ℕ
  w : ℚ
  deriving DecidableEq, Repr

/-- The candidate edges of a Prim step: pairs of a visited node and an
unvisited store node joined by an edge, with the cheapest joining
weight, enumerated deterministically (visited order, then construction
order). -/
def primCandidates (h : GraphStore) (visited : List ℕ) : List PEdge :=
  visited.flatMap fun x =>
    ((h.ids.filter fun y => !(visited.contains y) && hasEdge h x y).map
      fun y => ⟨x, y, minW h x y⟩)

/-- The first candidate of minimal weight (deterministic tie-break). -/
def pickMinP : List PEdge → Option PEdge
  | [] => none
  | e :: rest =>
    match pickMinP rest with
    | none => some e
    | some m => some (if m.w < e.w then m else e)

/-- The Prim growth loop: repeatedly add the cheapest edge joining a
visited node to an unvisited node; the fuel (number of nodes) bounds
the number of additions. -/
def primInner (h : GraphStore) : ℕ → List ℕ → List PEdge → List ℕ × List PEdge
  | 0, visited, tree => (visited, tree)
  | fuel + 1, visited, tree =>
    match pickMinP (primCandidates h visited) with
    | none => (visited, tree)
    | some e => primInner h fuel (visited ++ [e.y]) (tree ++ [e])

/-- The per-component outer loop: each store node in construction order
starts a new Prim growth when not yet visited. -/
def primOuter (h : GraphStore) :
    List ℕ → List ℕ → List PEdge → List ℕ → List ℕ × List PEdge × List ℕ
  | [], visited, tree, starts => (visited, tree, starts)
  | r :: rest, visited, tree, starts =>
    if visited.contains r then primOuter h rest visited tree starts
    else
      let grown := primInner h h.ids.length (visited ++ [r]) tree
      primOuter h rest grown.1 grown.2 (starts ++ [r])

/-- Modelled from the spec: `minimumSpanningTree` /
`arbol_expansion_minima_prim` (the source delegates to
`networkx.minimum_spanning_tree` after `to_undirected`, src lines
74-76; the library code is not part of this repository).  Prim's
algorithm over the undirected projection, run per connected component
from the first unvisited node in construction order; fails with
`EmptyGraph` on a store without nodes and otherwise returns the
spanning forest's edge list. -/
def arbol_expansion_minima_prim (g : GraphStore) : Except Err (List PEdge) :=
  if g.nodes.isEmpty then .error .emptyGraph
  else
    .ok (primOuter (undirectedProjection g) (undirectedProjection g).ids [] [] []).2.1

/-- The normalized unordered pairs of a Prim forest. -/
def treePairs (T : List PEdge) : List (ℕ × ℕ) :=
  T.map fun e => normPair e.x e.y

/-- Symmetric adjacency through a set of unordered pairs. -/
def adjF (F : Finset (ℕ × ℕ)) (a b : ℕ) : Prop :=
  (a, b) ∈ F ∨ (b, a) ∈ F

/-- Connectivity through a set of unordered pairs. -/
def ReachF (F : Finset (ℕ × ℕ)) : ℕ → ℕ → Prop :=
  Relation.ReflTransGen (adjF F)

/-- The full normalized pair set of a store. -/
def pairFinset (h : GraphStore) : Finset (ℕ × ℕ) :=
  (pairList h).toFinset

/-- The weight of an unordered pair: the cheapest edge between its
endpoints, in either direction. -/
def pairW (h : GraphStore) (p : ℕ × ℕ) : ℚ :=
  uW h p.1 p.2

/-- Total weight of a set of unordered pairs. -/
def weightF (h : GraphStore) (F : Finset (ℕ × ℕ)) : ℚ :=
  F.sum (pairW h)

/-- `F` induces the same connected-component partition as the full
pair set of `h`. -/
def SpanningF (h : GraphStore) (F : Finset (ℕ × ℕ)) : Prop :=
  ∀ a b, ReachF (pairFinset h) a b ↔ ReachF F a b

/-- No pair of `F` is redundant: removing any pair disconnects its own
endpoints (the edge set is a forest). -/
def AcyclicF (F : Finset (ℕ × ℕ)) : Prop :=
  ∀ p ∈ F, ¬ReachF (F.erase p) p.1 p.2

/-- Edge lookups and cheapest weights of `h` are direction-symmetric
(true of every undirected projection). -/
def HSym (h : GraphStore) : Prop :=
  ∀ a b : ℕ, hasEdge h a b = hasEdge h b a ∧ minW h a b = minW h b a

open Classical in
/-- The number of connected components of the undirected projection of
`g`: the number of store nodes that are the minimal identifier of their
component. -/
noncomputable def numComponents (g : GraphStore) : ℕ :=
  (g.ids.dedup.filter fun v => decide (∀ u ∈ g.ids,
    ReachF (pairFinset (undirectedProjection g)) v u → v ≤ u)).length

/-- The joint invariant of the Prim loops over a store `h` (used with the
undirected projection): `V` lists the visited nodes, `T` the forest edges,
`A` the component start nodes. -/
structure PrimInv (h : GraphStore) (V : List ℕ) (T : List PEdge) (A : List ℕ) : Prop where
  subV : ∀ v ∈ V, v ∈ h.ids
  nodupV : V.Nodup
  count : T.length + A.length = V.length
  endpoints : ∀ e ∈ T, e.x ∈ V ∧ e.y ∈ V
  edgesOk : ∀ e ∈ T, hasEdge h e.x e.y = true ∧ e.w = minW h e.x e.y
  nodupT : (treePairs T).Nodup
  acyclic : AcyclicF (treePairs T).toFinset
  connect : ∀ v ∈ V, ∃ r ∈ A, ReachF (treePairs T).toFinset r v
  subA : ∀ r ∈ A, r ∈ V
  nodupA : A.Nodup
  sep : A.Pairwise fun r s => ¬ReachF (pairFinset h) r s
  minimal : ∃ M : Finset (ℕ × ℕ), (treePairs T).toFinset ⊆ M ∧ M ⊆ pairFinset h ∧
    SpanningF h M ∧ ∀ F ⊆ pairFinset h, SpanningF h F → weightF h M ≤ weightF h F

/-- Equality of shortest-path outcomes is decidable (used to evaluate
the engine on concrete stores). -/
instance : DecidableEq (Except Err PathResult)
  | .ok a, .ok b =>
    if h : a = b then .isTrue (by rw [h]) else .isFalse (by simp [h])
  | .ok _, .error _ => .isFalse (by simp)
  | .error _, .ok _ => .isFalse (by simp)
  | .error a, .error b =>
    if h : a = b then .isTrue (by rw [h]) else .isFalse (by simp [h])

/-- A small concrete store (the specification scenario graph) used by
the evaluation witnesses. -/
def gEx : GraphStore :=
  { nodes := [⟨1, 0, 0⟩, ⟨2, 0, 1⟩, ⟨3, 1, 1⟩],
    edges := [⟨1, 2, 1⟩, ⟨2, 3, 1⟩, ⟨1, 3, 5⟩] }

/-- A two-node store with edges in both directions, used by the
evaluation witnesses. -/
def gBi : GraphStore :=
  { nodes := [⟨1, 0, 0⟩, ⟨2, 0, 1⟩], edges := [⟨1, 2, 5⟩, ⟨2, 1, 3⟩] }

/-- The identity clock stream used by the evaluation witnesses. -/
def idClock : ℕ → ℚ := fun i => (i : ℚ)

/-- The constant clock stream used by the evaluation witnesses. -/
def zeroClock : ℕ → ℚ := fun _ => 0

/-! ## Theorems -/

theorem nearestAux_spec (lat lon : ℚ) (l : List Node) (b : Node) :
    ∃ pre post, b :: l = pre ++ nearestAux lat lon l b :: post ∧
      (∀ m ∈ b :: l, dist2 (nearestAux lat lon l b) lat lon ≤ dist2 m lat lon) ∧
      (∀ m ∈ pre, dist2 (nearestAux lat lon l b) lat lon < dist2 m lat lon) := by
  induction l generalizing b with
  | nil =>
    exact ⟨[], [], by simp [nearestAux], by simp [nearestAux], by simp⟩
  | cons n rest ih =>
    by_cases h : dist2 n lat lon < dist2 b lat lon
    · obtain ⟨pre, post, hsplit, hmin, hpre⟩ := ih n
      have hr : nearestAux lat lon (n :: rest) b = nearestAux lat lon rest n := by
        simp [nearestAux, h]
      refine ⟨b :: pre, post, ?_, ?_, ?_⟩
      · rw [hr, List.cons_append, ← hsplit]
      · intro m hm
        rw [hr]
        rcases List.mem_cons.mp hm with rfl | hm
        · exact (hmin n (by simp)).trans h.le
        · exact hmin m hm
      · intro m hm
        rw [hr]
        rcases List.mem_cons.mp hm with rfl | hm
        · exact lt_of_le_of_lt (hmin n (by simp)) h
        · exact hpre m hm
    · obtain ⟨pre, post, hsplit, hmin, hpre⟩ := ih b
      have hle : dist2 b lat lon ≤ dist2 n lat lon := not_lt.mp h
      have hr : nearestAux lat lon (n :: rest) b = nearestAux lat lon rest b := by
        simp [nearestAux, h]
      rcases pre with _ | ⟨p0, pre⟩
      · have hb : nearestAux lat lon rest b = b := by
          have := congrArg List.head? hsplit
          simpa using this.symm
        have hpost : rest = post := by
          have := congrArg List.tail hsplit
          simpa [hb] using this
        refine ⟨[], n :: rest, by simp [hr, hb], ?_, by simp⟩
        intro m hm
        rw [hr, hb]
        rcases List.mem_cons.mp hm with rfl | hm
        · exact le_rfl
        · rcases List.mem_cons.mp hm with rfl | hm
          · exact hle
          · simpa [hb] using hmin m (List.mem_cons.mpr (Or.inr hm))
      · have hp0 : p0 = b := by
          have := congrArg List.head? hsplit
          simpa using this.symm
        subst hp0
        have htail : rest = pre ++ nearestAux lat lon rest p0 :: post := by
          have := congrArg List.tail hsplit
          simpa using this
        have hbmem : p0 ∈ p0 :: pre := by simp
        refine ⟨p0 :: n :: pre, post, ?_, ?_, ?_⟩
        · rw [hr]
          simpa using congrArg (fun l => p0 :: n :: l) htail
        · intro m hm
          rw [hr]
          rcases List.mem_cons.mp hm with rfl | hm
          · exact hmin m (by simp)
          · rcases List.mem_cons.mp hm with rfl | hm
            · exact ((hpre p0 hbmem).le).trans hle
            · exact hmin m (List.mem_cons.mpr (Or.inr hm))
        · intro m hm
          rw [hr]
          rcases List.mem_cons.mp hm with rfl | hm
          · exact hpre m hbmem
          · rcases List.mem_cons.mp hm with rfl | hm
            · exact lt_of_lt_of_le (hpre p0 hbmem) hle
            · exact hpre m (List.mem_cons.mpr (Or.inr hm))

theorem hasEdge_iff {g : GraphStore} {u v : ℕ} :
    hasEdge g u v = true ↔ ∃ e ∈ g.edges, e.src = u ∧ e.dst = v := by
  simp [hasEdge, List.any_eq_true, Bool.and_eq_true, beq_iff_eq]

theorem mem_edgesBetween {g : GraphStore} {u v : ℕ} {w : ℚ} :
    w ∈ edgesBetween g u v ↔ ∃ e ∈ g.edges, e.src = u ∧ e.dst = v ∧ e.weight = w := by
  simp only [edgesBetween, List.mem_map, List.mem_filter, Bool.and_eq_true, beq_iff_eq]
  constructor
  · rintro ⟨e, ⟨he, h1, h2⟩, rfl⟩
    exact ⟨e, he, h1, h2, rfl⟩
  · rintro ⟨e, he, h1, h2, rfl⟩
    exact ⟨e, ⟨he, h1, h2⟩, rfl⟩

theorem edgesBetween_ne_nil {g : GraphStore} {u v : ℕ} :
    edgesBetween g u v ≠ [] ↔ hasEdge g u v = true := by
  constructor
  · intro hne
    obtain ⟨w, hw⟩ := List.exists_mem_of_ne_nil _ hne
    obtain ⟨e, he, h1, h2, _⟩ := mem_edgesBetween.mp hw
    exact hasEdge_iff.mpr ⟨e, he, h1, h2⟩
  · intro h
    obtain ⟨e, he, h1, h2⟩ := hasEdge_iff.mp h
    intro hnil
    have : e.weight ∈ edgesBetween g u v := mem_edgesBetween.mpr ⟨e, he, h1, h2, rfl⟩
    simp [hnil] at this

theorem listMin_eq_none {l : List ℚ} : listMin l = none ↔ l = [] := by
  cases l with
  | nil => simp [listMin]
  | cons x xs => cases hxs : listMin xs <;> simp [listMin, hxs]

theorem listMin_isSome {l : List ℚ} (h : l ≠ []) : ∃ m, listMin l = some m := by
  cases hm : listMin l with
  | none => exact absurd (listMin_eq_none.mp hm) h
  | some m => exact ⟨m, rfl⟩

theorem listMin_mem {l : List ℚ} {m : ℚ} (h : listMin l = some m) : m ∈ l := by
  induction l generalizing m with
  | nil => simp [listMin] at h
  | cons x xs ih =>
    cases hxs : listMin xs with
    | none => rw [listMin, hxs] at h; simp at h; simp [h]
    | some m0 =>
      rw [listMin, hxs] at h
      simp only [Option.some.injEq] at h
      rcases min_choice x m0 with hc | hc <;> rw [hc] at h
      · simp [h]
      · exact List.mem_cons.mpr (Or.inr (ih (h ▸ hxs)))

theorem listMin_le {l : List ℚ} {m : ℚ} (h : listMin l = some m) :
    ∀ x ∈ l, m ≤ x := by
  induction l generalizing m with
  | nil => simp
  | cons x xs ih =>
    intro y hy
    cases hxs : listMin xs with
    | none =>
      rw [listMin, hxs] at h
      simp only [Option.some.injEq] at h
      have : xs = [] := listMin_eq_none.mp hxs
      subst this
      simp at hy
      simp [hy, ← h]
    | some m0 =>
      rw [listMin, hxs] at h
      simp only [Option.some.injEq] at h
      rcases List.mem_cons.mp hy with rfl | hy
      · rw [← h]; exact min_le_left _ _
      · calc m ≤ m0 := h ▸ min_le_right _ _
          _ ≤ y := ih hxs y hy

theorem listMin_eq_some {l : List ℚ} {m : ℚ} (hm : m ∈ l) (hlb : ∀ x ∈ l, m ≤ x) :
    listMin l = some m := by
  obtain ⟨m0, h0⟩ := listMin_isSome (show l ≠ [] by rintro rfl; simp at hm)
  rw [h0]
  have h1 : m0 ≤ m := listMin_le h0 m hm
  have h2 : m ≤ m0 := hlb m0 (listMin_mem h0)
  rw [le_antisymm h1 h2]

theorem minW_spec {g : GraphStore} {u v : ℕ} (h : hasEdge g u v = true) :
    minW g u v ∈ edgesBetween g u v ∧ ∀ w ∈ edgesBetween g u v, minW g u v ≤ w := by
  obtain ⟨m, hm⟩ := listMin_isSome (edgesBetween_ne_nil.mpr h)
  rw [minW, hm]
  exact ⟨listMin_mem hm, listMin_le hm⟩

/-- The minimum edge weight is realized by an actual edge. -/
theorem minW_exists_edge {g : GraphStore} {u v : ℕ} (h : hasEdge g u v = true) :
    ∃ e ∈ g.edges, e.src = u ∧ e.dst = v ∧ e.weight = minW g u v :=
  mem_edgesBetween.mp (minW_spec h).1

theorem minW_le_edge {g : GraphStore} {u v : ℕ} {e : Edge} (he : e ∈ g.edges)
    (h1 : e.src = u) (h2 : e.dst = v) : minW g u v ≤ e.weight := by
  have hh : hasEdge g u v = true := hasEdge_iff.mpr ⟨e, he, h1, h2⟩
  exact (minW_spec hh).2 _ (mem_edgesBetween.mpr ⟨e, he, h1, h2, rfl⟩)

theorem minW_nonneg {g : GraphStore} (hg : g.Nonneg) (u v : ℕ) : 0 ≤ minW g u v := by
  by_cases h : hasEdge g u v = true
  · obtain ⟨e, he, -, -, hw⟩ := minW_exists_edge h
    exact hw ▸ hg e he
  · have : edgesBetween g u v = [] := by
      by_contra hne
      exact h (edgesBetween_ne_nil.mp hne)
    rw [minW, this]
    simp [listMin]

/-- C3 (claims file): for a store with at least one node, `nearest`
(`obtener_nodo_por_coordenadas`) returns the identifier of a node of the
store such that no other node is strictly closer to the query point under
the documented squared planar distance, ties broken in favor of the
first-inserted node; for a store with no nodes it fails with
`EmptyGraph`. -/
theorem nearest_correct (g : GraphStore) (lat lon : ℚ) :
    (g.nodes = [] → obtener_nodo_por_coordenadas g lat lon = .error .emptyGraph) ∧
    (g.nodes ≠ [] → ∃ nd pre post,
      obtener_nodo_por_coordenadas g lat lon = .ok nd.id ∧
      g.nodes = pre ++ nd :: post ∧ nd.id ∈ g.ids ∧
      (∀ m ∈ g.nodes, dist2 nd lat lon ≤ dist2 m lat lon) ∧
      (∀ m ∈ pre, dist2 nd lat lon < dist2 m lat lon)) := by
  constructor
  · intro h
    simp [obtener_nodo_por_coordenadas, h]
  · intro h
    match hg : g.nodes with
    | [] => exact absurd hg h
    | n :: rest =>
      obtain ⟨pre, post, hsplit, hmin, hpre⟩ := nearestAux_spec lat lon rest n
      refine ⟨nearestAux lat lon rest n, pre, post, ?_, hsplit, ?_, hmin, hpre⟩
      · simp [obtener_nodo_por_coordenadas, hg]
      · have hmem : nearestAux lat lon rest n ∈ g.nodes := by
          rw [hg, hsplit]; exact List.mem_append.mpr (Or.inr (by simp))
        exact List.mem_map.mpr ⟨_, hmem, rfl⟩

/-- Witness for C3: the nearest-node contract evaluated on the concrete
three-node store of the specification scenario. -/
theorem nearest_correct_witness :
    (gEx.nodes = [] → obtener_nodo_por_coordenadas gEx 1 0 = .error .emptyGraph) ∧
    (gEx.nodes ≠ [] → ∃ nd pre post,
      obtener_nodo_por_coordenadas gEx 1 0 = .ok nd.id ∧
      gEx.nodes = pre ++ nd :: post ∧ nd.id ∈ gEx.ids ∧
      (∀ m ∈ gEx.nodes, dist2 nd 1 0 ≤ dist2 m 1 0) ∧
      (∀ m ∈ pre, dist2 nd 1 0 < dist2 m 1 0)) :=
  nearest_correct gEx 1 0

theorem normPair_comm (u v : ℕ) : normPair u v = normPair v u := by
  unfold normPair
  split_ifs <;> simp_all <;> omega

theorem normPair_idem (u v : ℕ) :
    normPair (normPair u v).1 (normPair u v).2 = normPair u v := by
  unfold normPair
  split_ifs <;> simp_all <;> omega

theorem normPair_eq_iff {a b u v : ℕ} :
    normPair a b = normPair u v ↔ (a = u ∧ b = v) ∨ (a = v ∧ b = u) := by
  unfold normPair
  split_ifs <;> simp [Prod.ext_iff] <;> omega

theorem pairList_nodup (g : GraphStore) : (pairList g).Nodup :=
  List.nodup_dedup _

theorem pairList_norm {g : GraphStore} {p : ℕ × ℕ} (hp : p ∈ pairList g) :
    p = normPair p.1 p.2 := by
  rw [pairList, List.mem_dedup] at hp
  obtain ⟨e, -, rfl⟩ := List.mem_map.mp hp
  exact (normPair_idem _ _).symm

theorem mem_pairList {g : GraphStore} {u v : ℕ} :
    normPair u v ∈ pairList g ↔ (hasEdge g u v = true ∨ hasEdge g v u = true) := by
  rw [pairList, List.mem_dedup, List.mem_map]
  constructor
  · rintro ⟨e, he, heq⟩
    rcases normPair_eq_iff.mp heq with ⟨h1, h2⟩ | ⟨h1, h2⟩
    · exact Or.inl (hasEdge_iff.mpr ⟨e, he, h1, h2⟩)
    · exact Or.inr (hasEdge_iff.mpr ⟨e, he, h1, h2⟩)
  · rintro (h | h) <;> obtain ⟨e, he, h1, h2⟩ := hasEdge_iff.mp h
    · exact ⟨e, he, normPair_eq_iff.mpr (Or.inl ⟨h1, h2⟩)⟩
    · exact ⟨e, he, normPair_eq_iff.mpr (Or.inr ⟨h1, h2⟩)⟩

theorem uW_comm (g : GraphStore) (u v : ℕ) : uW g u v = uW g v u := by
  unfold uW
  cases h1 : listMin (edgesBetween g u v ++ edgesBetween g v u) with
  | none =>
    have := listMin_eq_none.mp h1
    rcases List.append_eq_nil.mp this with ⟨ha, hb⟩
    rw [listMin_eq_none.mpr (by rw [ha, hb]; rfl)]
  | some m =>
    have hmem := listMin_mem h1
    have hle := listMin_le h1
    have : listMin (edgesBetween g v u ++ edgesBetween g u v) = some m := by
      apply listMin_eq_some
      · rcases List.mem_append.mp hmem with h | h
        · exact List.mem_append.mpr (Or.inr h)
        · exact List.mem_append.mpr (Or.inl h)
      · intro x hx
        rcases List.mem_append.mp hx with h | h
        · exact hle x (List.mem_append.mpr (Or.inr h))
        · exact hle x (List.mem_append.mpr (Or.inl h))
    rw [this]

theorem uW_single {g : GraphStore} {u v : ℕ} (h2 : hasEdge g v u = false) :
    uW g u v = minW g u v := by
  have hnil : edgesBetween g v u = [] := by
    by_contra hne
    rw [edgesBetween_ne_nil.mp hne] at h2
    exact Bool.true_eq_false.mp h2
  rw [uW, minW, hnil, List.append_nil]

theorem uW_both {g : GraphStore} {u v : ℕ} (h1 : hasEdge g u v = true)
    (h2 : hasEdge g v u = true) : uW g u v = min (minW g u v) (minW g v u) := by
  obtain ⟨ha1, ha2⟩ := minW_spec h1
  obtain ⟨hb1, hb2⟩ := minW_spec h2
  have : listMin (edgesBetween g u v ++ edgesBetween g v u)
      = some (min (minW g u v) (minW g v u)) := by
    apply listMin_eq_some
    · rcases min_choice (minW g u v) (minW g v u) with hc | hc <;> rw [hc]
      · exact List.mem_append.mpr (Or.inl ha1)
      · exact List.mem_append.mpr (Or.inr hb1)
    · intro x hx
      rcases List.mem_append.mp hx with h | h
      · exact (min_le_left _ _).trans (ha2 x h)
      · exact (min_le_right _ _).trans (hb2 x h)
  rw [uW, this]

theorem projEdges_self (g : GraphStore) (u : ℕ) :
    projEdges g (u, u) = [⟨u, u, uW g u u⟩] := by
  unfold projEdges
  exact if_pos rfl

theorem projEdges_ne (g : GraphStore) {u v : ℕ} (h : u ≠ v) :
    projEdges g (u, v) = [⟨u, v, uW g u v⟩, ⟨v, u, uW g u v⟩] := by
  unfold projEdges
  exact if_neg h

/-- How filtering the projection edges behaves over a normalized,
duplicate-free pair list. -/
theorem projEdges_filter (g : GraphStore) (u v : ℕ) (l : List (ℕ × ℕ))
    (hnorm : ∀ p ∈ l, p = normPair p.1 p.2) (hnd : l.Nodup) :
    (l.flatMap (projEdges g)).filter (fun e => e.src == u && e.dst == v) =
      if normPair u v ∈ l then [⟨u, v, uW g u v⟩] else [] := by
  induction l with
  | nil => simp
  | cons p l ih =>
    have hp : p = normPair p.1 p.2 := hnorm p (by simp)
    have htail := ih (fun q hq => hnorm q (by simp [hq])) hnd.of_cons
    rw [List.flatMap_cons, List.filter_append, htail]
    by_cases hpm : p = normPair u v
    · have hnm : normPair u v ∉ l := by
        rw [← hpm]
        exact hnd.not_mem
      rw [if_neg hnm, if_pos (by simp [← hpm])]
      rw [List.append_nil]
      rcases normPair_eq_iff.mp (hp ▸ hpm : normPair p.1 p.2 = normPair u v)
        with ⟨h1, h2⟩ | ⟨h1, h2⟩
      · have hpe : p = (u, v) := Prod.ext h1 h2
        subst hpe
        by_cases huv : u = v
        · subst huv
          rw [projEdges_self, List.filter_cons_of_pos (by simp), List.filter_nil]
        · rw [projEdges_ne g huv]
          rw [List.filter_cons_of_pos (by simp),
            List.filter_cons_of_neg (by simp [Ne.symm huv]), List.filter_nil]
      · have hpe : p = (v, u) := Prod.ext h1 h2
        subst hpe
        by_cases huv : u = v
        · subst huv
          rw [projEdges_self, List.filter_cons_of_pos (by simp), List.filter_nil]
        · rw [projEdges_ne g (Ne.symm huv)]
          rw [List.filter_cons_of_neg (by simp [huv]),
            List.filter_cons_of_pos (by simp), List.filter_nil, uW_comm g v u]
    · have hhead : (projEdges g p).filter (fun e => e.src == u && e.dst == v) = [] := by
        rw [List.filter_eq_nil_iff]
        intro e he
        simp only [projEdges] at he
        split_ifs at he with hd
        · simp only [List.mem_singleton] at he
          subst he
          simp only [Bool.and_eq_true, beq_iff_eq]
          rintro ⟨rfl, rfl⟩
          exact hpm hp
        · simp only [List.mem_cons, List.mem_singleton] at he
          rcases he with rfl | rfl | h
          · simp only [Bool.and_eq_true, beq_iff_eq]
            rintro ⟨rfl, rfl⟩
            exact hpm hp
          · simp only [Bool.and_eq_true, beq_iff_eq]
            rintro ⟨rfl, rfl⟩
            exact hpm (hp.trans (normPair_comm p.1 p.2))
          · exact absurd h (by simp)
      rw [hhead, List.nil_append]
      by_cases hmem : normPair u v ∈ l
      · rw [if_pos hmem, if_pos (List.mem_cons.mpr (Or.inr hmem))]
      · rw [if_neg hmem, if_neg (fun h =>
          (List.mem_cons.mp h).elim (fun h1 => hpm h1.symm) hmem)]

theorem edgesBetween_proj (g : GraphStore) (u v : ℕ) :
    edgesBetween (undirectedProjection g) u v =
      if normPair u v ∈ pairList g then [uW g u v] else [] := by
  show ((((pairList g).flatMap (projEdges g)).filter
    (fun e => e.src == u && e.dst == v)).map Edge.weight) = _
  rw [projEdges_filter g u v (pairList g) (fun p hp => pairList_norm hp) (pairList_nodup g)]
  by_cases h : normPair u v ∈ pairList g
  · rw [if_pos h, if_pos h]
    rfl
  · rw [if_neg h, if_neg h]
    rfl

theorem hasEdge_proj (g : GraphStore) (u v : ℕ) :
    hasEdge (undirectedProjection g) u v = true ↔
      (hasEdge g u v = true ∨ hasEdge g v u = true) := by
  rw [← edgesBetween_ne_nil, edgesBetween_proj]
  by_cases h : normPair u v ∈ pairList g
  · rw [if_pos h]
    simp only [ne_eq, List.cons_ne_nil, not_false_eq_true, true_iff]
    exact mem_pairList.mp h
  · rw [if_neg h]
    simp only [ne_eq, not_true_eq_false, false_iff]
    push_neg
    exact ⟨fun h1 => absurd (mem_pairList.mpr (Or.inl h1)) h,
      fun h2 => absurd (mem_pairList.mpr (Or.inr h2)) h⟩

theorem minW_proj (g : GraphStore) {u v : ℕ} (h : normPair u v ∈ pairList g) :
    minW (undirectedProjection g) u v = uW g u v := by
  rw [minW, edgesBetween_proj, if_pos h]
  rfl


/-- C4 (claims file): the undirected projection contains an edge between
`u` and `v` (in both directions) exactly when the source store has a
directed edge in at least one direction; when both directions exist the
retained weight is the smaller of the two directional minima, and a
single-direction edge becomes bidirectional with its own weight.  The
projection is deterministic: it is a pure function of the store. -/
theorem undirectedProjection_spec (g : GraphStore) (u v : ℕ) :
    (hasEdge (undirectedProjection g) u v = true ↔
      (hasEdge g u v = true ∨ hasEdge g v u = true)) ∧
    (hasEdge g u v = true → hasEdge g v u = true →
      minW (undirectedProjection g) u v = min (minW g u v) (minW g v u) ∧
      minW (undirectedProjection g) v u = min (minW g u v) (minW g v u)) ∧
    (hasEdge g u v = true → hasEdge g v u = false →
      minW (undirectedProjection g) u v = minW g u v ∧
      minW (undirectedProjection g) v u = minW g u v) := by
  refine ⟨hasEdge_proj g u v, ?_, ?_⟩
  · intro h1 h2
    have hm : normPair u v ∈ pairList g := mem_pairList.mpr (Or.inl h1)
    have hm2 : normPair v u ∈ pairList g := by
      rw [normPair_comm]
      exact hm
    constructor
    · rw [minW_proj g hm, uW_both h1 h2]
    · rw [minW_proj g hm2, uW_both h2 h1, min_comm]
  · intro h1 h2
    have hm : normPair u v ∈ pairList g := mem_pairList.mpr (Or.inl h1)
    have hm2 : normPair v u ∈ pairList g := by
      rw [normPair_comm]
      exact hm
    constructor
    · rw [minW_proj g hm, uW_single h2]
    · rw [minW_proj g hm2, uW_comm g v u, uW_single h2]

/-- Witness for C4: the projection contract evaluated on a concrete
store with a bidirectional pair (weights 5 and 3). -/
theorem undirectedProjection_spec_witness :
    (hasEdge (undirectedProjection gBi) 1 2 = true ↔
      (hasEdge gBi 1 2 = true ∨ hasEdge gBi 2 1 = true)) ∧
    (hasEdge gBi 1 2 = true → hasEdge gBi 2 1 = true →
      minW (undirectedProjection gBi) 1 2 = min (minW gBi 1 2) (minW gBi 2 1) ∧
      minW (undirectedProjection gBi) 2 1 = min (minW gBi 1 2) (minW gBi 2 1)) ∧
    (hasEdge gBi 1 2 = true → hasEdge gBi 2 1 = false →
      minW (undirectedProjection gBi) 1 2 = minW gBi 1 2 ∧
      minW (undirectedProjection gBi) 2 1 = minW gBi 1 2) :=
  undirectedProjection_spec gBi 1 2

/-- C10 (claims file): `inducedSubstore` fails with `InsufficientNodes`
exactly when `count` is below 2 or exceeds the available nodes, and
otherwise returns the sub-store on exactly the first `count` entries of
the ordering, introducing no node or edge absent from the parent store
and keeping only edges with both endpoints inside the selected node set;
re-deriving the node count reproduces the requested count. -/
theorem inducedSubstore_spec (g : GraphStore) (order : List Node) (count : ℕ)
    (horder : ∀ x ∈ order, x ∈ g.nodes) :
    ((count < 2 ∨ order.length < count) →
      inducedSubstore g order count = .error .insufficientNodes) ∧
    (2 ≤ count → count ≤ order.length →
      ∃ sub, inducedSubstore g order count = .ok sub ∧
        sub.nodes = order.take count ∧
        sub.nodes.length = count ∧
        (∀ x ∈ sub.nodes, x ∈ g.nodes) ∧
        (∀ e ∈ sub.edges, e ∈ g.edges) ∧
        (∀ e ∈ sub.edges, e.src ∈ sub.ids ∧ e.dst ∈ sub.ids)) := by
  constructor
  · intro h
    rw [inducedSubstore, if_pos h]
  · intro h1 h2
    have hcond : ¬(count < 2 ∨ order.length < count) := by omega
    refine ⟨substoreOn g (order.take count), by rw [inducedSubstore, if_neg hcond],
      rfl, ?_, ?_, ?_, ?_⟩
    · show (order.take count).length = count
      rw [List.length_take]
      omega
    · intro x hx
      exact horder x (List.mem_of_mem_take hx)
    · intro e he
      exact List.mem_of_mem_filter he
    · intro e he
      have hcnd := List.of_mem_filter he
      simp only [Bool.and_eq_true] at hcnd
      exact ⟨List.mem_of_elem_eq_true hcnd.1, List.mem_of_elem_eq_true hcnd.2⟩

/-- Witness for C10: the sub-store contract on the concrete three-node
store, requesting its first two nodes. -/
theorem inducedSubstore_spec_witness :
    (∀ x ∈ gEx.nodes, x ∈ gEx.nodes) ∧
    ((2 < 2 ∨ gEx.nodes.length < 2) →
      inducedSubstore gEx gEx.nodes 2 = .error .insufficientNodes) ∧
    (2 ≤ 2 → 2 ≤ gEx.nodes.length →
      ∃ sub, inducedSubstore gEx gEx.nodes 2 = .ok sub ∧
        sub.nodes = gEx.nodes.take 2 ∧
        sub.nodes.length = 2 ∧
        (∀ x ∈ sub.nodes, x ∈ gEx.nodes) ∧
        (∀ e ∈ sub.edges, e ∈ gEx.edges) ∧
        (∀ e ∈ sub.edges, e.src ∈ sub.ids ∧ e.dst ∈ sub.ids)) :=
  ⟨fun x hx => hx, (inducedSubstore_spec gEx gEx.nodes 2 (fun x hx => hx)).1,
    (inducedSubstore_spec gEx gEx.nodes 2 (fun x hx => hx)).2⟩

/-- C8 (claims file): for `repetitions = n ≥ 1`, `measureAverage`
(`medir_promedio_tiempo`) performs exactly `n` invocations and returns
the arithmetic mean of the `n` per-invocation durations (stated
multiplicatively: `n` times the result is the sum of the durations);
with `repetitions = 1` it returns exactly the single measured
duration. -/
theorem medir_promedio_spec (clock : ℕ → ℚ) (k : ℕ) (n : ℤ) (h : 1 ≤ n) :
    ∃ m, medir_promedio_tiempo clock k n = .ok (m, n.toNat) ∧
      (durations clock k n.toNat).length = n.toNat ∧ ((n.toNat : ℤ) = n) ∧
      (n : ℚ) * m = (durations clock k n.toNat).sum ∧
      (n = 1 → m = clock (k + 1) - clock k) := by
  have hlen : (durations clock k n.toNat).length = n.toNat := by
    simp [durations]
  have hpos : 0 < n.toNat := by omega
  have hcast : ((n.toNat : ℤ)) = n := by omega
  refine ⟨(durations clock k n.toNat).sum / ((n.toNat : ℕ) : ℚ), ?_, hlen, hcast, ?_, ?_⟩
  · rw [medir_promedio_tiempo]
    simp only [hlen]
    rw [if_neg (by omega)]
  · have hne : ((n.toNat : ℚ)) ≠ 0 := by
      exact_mod_cast Nat.pos_iff_ne_zero.mp hpos
    have : ((n : ℚ)) = ((n.toNat : ℚ)) := by
      exact_mod_cast hcast.symm
    rw [this, mul_div_cancel₀ _ hne]
  · intro h1
    subst h1
    show (durations clock k (1 : ℤ).toNat).sum / (((1 : ℤ).toNat : ℕ) : ℚ) = _
    norm_num [durations, List.range_succ]

/-- Witness for C8: a two-repetition measurement over the identity
clock. -/
theorem medir_promedio_spec_witness :
    (1 : ℤ) ≤ 2 ∧ ∃ m,
      medir_promedio_tiempo idClock 0 2 = .ok (m, (2 : ℤ).toNat) ∧
      (durations idClock 0 (2 : ℤ).toNat).length = (2 : ℤ).toNat ∧
      (((2 : ℤ).toNat : ℤ) = 2) ∧
      ((2 : ℤ) : ℚ) * m = (durations idClock 0 (2 : ℤ).toNat).sum ∧
      ((2 : ℤ) = 1 → m = idClock (0 + 1) - idClock 0) :=
  ⟨by decide, medir_promedio_spec idClock 0 2 (by decide)⟩

/-- C9 counterexample: at `repetitions = 0` the source raises Python's
`ZeroDivisionError` (averaging zero samples), which is not the
`InvalidRepetitionCount` failure the claim names. -/
theorem medir_promedio_cex :
    medir_promedio_tiempo zeroClock 0 0 = .error .zeroDivisionError ∧
    medir_promedio_tiempo zeroClock 0 0 ≠ .error .invalidRepetitionCount := by
  constructor
  · rfl
  · intro h
    rw [show medir_promedio_tiempo zeroClock 0 0 = .error .zeroDivisionError from rfl] at h
    simp at h

/-- C9 amended: for every repetition count below 1, the harness fails
synchronously, but with the division-by-zero error of averaging zero
samples rather than a designated `InvalidRepetitionCount` error. -/
theorem medir_promedio_below_one (clock : ℕ → ℚ) (k : ℕ) (n : ℤ) (h : n < 1) :
    medir_promedio_tiempo clock k n = .error .zeroDivisionError := by
  have h0 : n.toNat = 0 := by omega
  rw [medir_promedio_tiempo]
  simp [durations, h0]

/-- Witness for the amended C9 at `repetitions = 0`. -/
theorem medir_promedio_below_one_witness :
    (0 : ℤ) < 1 ∧
      medir_promedio_tiempo zeroClock 1 0 = .error .zeroDivisionError :=
  ⟨by decide, medir_promedio_below_one zeroClock 1 0 (by decide)⟩

theorem medir_ok5 (clock : ℕ → ℚ) (k : ℕ) :
    medir_promedio_tiempo clock k 5 = .ok (promedio5 clock k, 5) := by
  have h5 : ((5 : ℤ)).toNat = 5 := rfl
  have hlen : (durations clock k 5).length = 5 := by
    simp [durations]
  simp only [medir_promedio_tiempo, promedio5, h5]
  rw [if_neg (by rw [hlen]; omega), hlen]
  norm_num

theorem mem_pyRange10 {stop i : ℕ} :
    i ∈ pyRange 10 stop 10 ↔ 10 ≤ i ∧ i < stop ∧ i % 10 = 0 := by
  simp only [pyRange, List.mem_map, List.mem_range]
  constructor
  · rintro ⟨j, hj, rfl⟩
    omega
  · rintro ⟨h1, h2, h3⟩
    exact ⟨(i - 10) / 10, by omega, by omega⟩

theorem pyRange10_nil {stop : ℕ} (h : stop ≤ 10) : pyRange 10 stop 10 = [] := by
  rw [pyRange, show (stop - 10 + 10 - 1) / 10 = 0 by omega]
  rfl

theorem withIdx_map_shift {α : Type} (f : ℕ × ℕ → α) (j : ℕ) (l : List ℕ) :
    (withIdx (j + 1) l).map f = (withIdx j l).map fun p => f (p.1 + 1, p.2) := by
  induction l generalizing j with
  | nil => rfl
  | cons i rest ih => simp [withIdx, ih]

theorem runSeriesAux_spec (g : GraphStore) (clock : ℕ → ℚ) (L : List ℕ) (k : ℕ) :
    runSeriesAux g clock L k =
      (⟨(L.filter fun i => decide (2 ≤ (g.nodes.take i).length)).map
          (fun i => (g.nodes.take i).length),
        (withIdx 0 (L.filter fun i => decide (2 ≤ (g.nodes.take i).length))).map
          (fun p => promedio5 clock (k + 20 * p.1)),
        (withIdx 0 (L.filter fun i => decide (2 ≤ (g.nodes.take i).length))).map
          (fun p => promedio5 clock (k + 20 * p.1 + 10))⟩,
       (L.filter fun i => decide (2 ≤ (g.nodes.take i).length)).map fun i =>
         (((g.nodes.take i).map Node.id).headD 0,
          ((g.nodes.take i).map Node.id).getLastD 0)) := by
  induction L generalizing k with
  | nil => rfl
  | cons i rest ih =>
    by_cases hlen : (g.nodes.take i).length < 2
    · simp only [runSeriesAux]
      rw [if_pos (show (substoreOn g (g.nodes.take i)).nodes.length < 2 from hlen)]
      rw [ih, List.filter_cons,
        if_neg (fun h => absurd (of_decide_eq_true h) (by omega))]
    · have hcond : 2 ≤ (g.nodes.take i).length := by omega
      simp only [runSeriesAux]
      rw [if_neg (show ¬(substoreOn g (g.nodes.take i)).nodes.length < 2 from hlen)]
      rw [List.filter_cons, if_pos (decide_eq_true hcond)]
      rw [medir_ok5 clock k, medir_ok5 clock (k + 10), ih]
      simp only [valorMedicion, withIdx, List.map_cons]
      rw [withIdx_map_shift, withIdx_map_shift]
      refine Prod.ext ?_ rfl
      show TimingSeries.mk _ _ _ = TimingSeries.mk _ _ _
      · simp only [TimingSeries.mk.injEq]
        refine ⟨rfl, ?_, ?_⟩
        · rw [show k + 20 * 0 = k by omega]
          refine congrArg (promedio5 clock k :: ·) ?_
          apply List.map_congr_left
          intro p hp
          have : k + 20 + 20 * p.1 = k + 20 * (p.1 + 1) := by ring
          rw [this]
        · rw [show k + 20 * 0 + 10 = k + 10 by omega]
          refine congrArg (promedio5 clock (k + 10) :: ·) ?_
          apply List.map_congr_left
          intro p hp
          have : k + 20 + 20 * p.1 + 10 = k + 20 * (p.1 + 1) + 10 := by ring
          rw [this]

/-- C7 (claims file), amended: `runSeries`
(`medir_tiempos_de_ejecucion`) iterates node-count thresholds
`10, 20, …` up to `min 99 (n - 1)` in steps of 10, builds the induced
sub-store of each threshold's prefix of the node order, skips any
threshold whose sub-store has fewer than 2 nodes, uses the sub-store's
first and last node as origin and destination of the timed
shortest-path call, and appends each kept threshold's actual node count
together with the two five-repetition measured averages to three
parallel sequences; for a store with fewer than 11 nodes (not 12, as
claimed) the result is the empty `TimingSeries`, as a normal non-error
outcome. -/
theorem runSeries_spec (g : GraphStore) (clock : ℕ → ℚ) :
    (∀ i, i ∈ pyRange 10 (min 100 g.nodes.length) 10 ↔
      (10 ≤ i ∧ i ≤ min 99 (g.nodes.length - 1) ∧ i % 10 = 0)) ∧
    medir_tiempos_de_ejecucion g clock =
      (⟨((pyRange 10 (min 100 g.nodes.length) 10).filter fun i =>
            decide (2 ≤ (g.nodes.take i).length)).map
          (fun i => (g.nodes.take i).length),
        (withIdx 0 ((pyRange 10 (min 100 g.nodes.length) 10).filter fun i =>
            decide (2 ≤ (g.nodes.take i).length))).map
          (fun p => promedio5 clock (20 * p.1)),
        (withIdx 0 ((pyRange 10 (min 100 g.nodes.length) 10).filter fun i =>
            decide (2 ≤ (g.nodes.take i).length))).map
          (fun p => promedio5 clock (20 * p.1 + 10))⟩,
       ((pyRange 10 (min 100 g.nodes.length) 10).filter fun i =>
            decide (2 ≤ (g.nodes.take i).length)).map fun i =>
         (((g.nodes.take i).map Node.id).headD 0,
          ((g.nodes.take i).map Node.id).getLastD 0)) ∧
    (medir_tiempos_de_ejecucion g clock).1.tamanos.length =
      (medir_tiempos_de_ejecucion g clock).1.tiempos_dijkstra.length ∧
    (medir_tiempos_de_ejecucion g clock).1.tamanos.length =
      (medir_tiempos_de_ejecucion g clock).1.tiempos_prim.length ∧
    (g.nodes.length < 11 → medir_tiempos_de_ejecucion g clock = (⟨[], [], []⟩, [])) := by
  have hlen : ∀ (l : List ℕ), (withIdx 0 l).length = l.length := by
    intro l
    have : ∀ j l, (withIdx j l).length = List.length l := by
      intro j l
      induction l generalizing j with
      | nil => rfl
      | cons a rest ih => simp [withIdx, ih]
    exact this 0 l
  have hmain : medir_tiempos_de_ejecucion g clock =
      (⟨((pyRange 10 (min 100 g.nodes.length) 10).filter fun i =>
            decide (2 ≤ (g.nodes.take i).length)).map
          (fun i => (g.nodes.take i).length),
        (withIdx 0 ((pyRange 10 (min 100 g.nodes.length) 10).filter fun i =>
            decide (2 ≤ (g.nodes.take i).length))).map
          (fun p => promedio5 clock (20 * p.1)),
        (withIdx 0 ((pyRange 10 (min 100 g.nodes.length) 10).filter fun i =>
            decide (2 ≤ (g.nodes.take i).length))).map
          (fun p => promedio5 clock (20 * p.1 + 10))⟩,
       ((pyRange 10 (min 100 g.nodes.length) 10).filter fun i =>
            decide (2 ≤ (g.nodes.take i).length)).map fun i =>
         (((g.nodes.take i).map Node.id).headD 0,
          ((g.nodes.take i).map Node.id).getLastD 0)) := by
    rw [medir_tiempos_de_ejecucion, runSeriesAux_spec]
    simp only [Nat.zero_add]
  refine ⟨?_, hmain, ?_, ?_, ?_⟩
  · intro i
    rw [mem_pyRange10]
    omega
  · rw [hmain]
    simp [hlen]
  · rw [hmain]
    simp [hlen]
  · intro hsmall
    rw [medir_tiempos_de_ejecucion,
      pyRange10_nil (by omega : min 100 g.nodes.length ≤ 10)]
    rfl

/-- C7 counterexample: an eleven-node store has fewer than 12 nodes,
yet `runSeries` measures the 10-node threshold and returns a non-empty
series (sizes list `[10]`). -/
theorem runSeries_cex :
    g11.nodes.length = 11 ∧ g11.nodes.length < 12 ∧
    (medir_tiempos_de_ejecucion g11 zeroClock).1.tamanos = [10] :=
  ⟨rfl, by decide, by rfl⟩

/-- Witness for the amended C7 at the eleven-node store and the constant
clock. -/
theorem runSeries_spec_witness :
    (∀ i, i ∈ pyRange 10 (min 100 g11.nodes.length) 10 ↔
      (10 ≤ i ∧ i ≤ min 99 (g11.nodes.length - 1) ∧ i % 10 = 0)) ∧
    medir_tiempos_de_ejecucion g11 zeroClock =
      (⟨((pyRange 10 (min 100 g11.nodes.length) 10).filter fun i =>
            decide (2 ≤ (g11.nodes.take i).length)).map
          (fun i => (g11.nodes.take i).length),
        (withIdx 0 ((pyRange 10 (min 100 g11.nodes.length) 10).filter fun i =>
            decide (2 ≤ (g11.nodes.take i).length))).map
          (fun p => promedio5 zeroClock (20 * p.1)),
        (withIdx 0 ((pyRange 10 (min 100 g11.nodes.length) 10).filter fun i =>
            decide (2 ≤ (g11.nodes.take i).length))).map
          (fun p => promedio5 zeroClock (20 * p.1 + 10))⟩,
       ((pyRange 10 (min 100 g11.nodes.length) 10).filter fun i =>
            decide (2 ≤ (g11.nodes.take i).length)).map fun i =>
         (((g11.nodes.take i).map Node.id).headD 0,
          ((g11.nodes.take i).map Node.id).getLastD 0)) ∧
    (medir_tiempos_de_ejecucion g11 zeroClock).1.tamanos.length =
      (medir_tiempos_de_ejecucion g11 zeroClock).1.tiempos_dijkstra.length ∧
    (medir_tiempos_de_ejecucion g11 zeroClock).1.tamanos.length =
      (medir_tiempos_de_ejecucion g11 zeroClock).1.tiempos_prim.length ∧
    (g11.nodes.length < 11 → medir_tiempos_de_ejecucion g11 zeroClock = (⟨[], [], []⟩, [])) :=
  runSeries_spec g11 zeroClock

theorem isPathFrom_iff {g : GraphStore} {o d : ℕ} {p : List ℕ} :
    isPathFrom g o d p = true ↔
      p.head? = some o ∧ p.getLast? = some d ∧ chain g p = true := by
  simp [isPathFrom, Bool.and_eq_true, beq_iff_eq, and_assoc]

theorem chain_append (g : GraphStore) (as : List ℕ) (b : ℕ) (bs : List ℕ) :
    chain g (as ++ b :: bs) = (chain g (as ++ [b]) && chain g (b :: bs)) := by
  induction as with
  | nil => simp [chain]
  | cons a as ih =>
    cases as with
    | nil =>
      show chain g (a :: b :: bs) = (chain g (a :: [b]) && chain g (b :: bs))
      rw [chain, chain]
      rw [show chain g [b] = true from rfl, Bool.and_true]
    | cons a2 rest =>
      show chain g (a :: a2 :: (rest ++ b :: bs)) = _
      rw [chain, show (a :: a2 :: rest) ++ [b] = a :: a2 :: (rest ++ [b]) from rfl, chain]
      rw [show a2 :: (rest ++ b :: bs) = (a2 :: rest) ++ b :: bs from rfl]
      rw [ih, Bool.and_assoc]
      rfl

theorem pathWeight_append (g : GraphStore) (as : List ℕ) (b : ℕ) (bs : List ℕ) :
    pathWeight g (as ++ b :: bs) = pathWeight g (as ++ [b]) + pathWeight g (b :: bs) := by
  induction as with
  | nil =>
    show pathWeight g (b :: bs) = pathWeight g [b] + pathWeight g (b :: bs)
    rw [show pathWeight g [b] = 0 from rfl, zero_add]
  | cons a as ih =>
    cases as with
    | nil =>
      show pathWeight g (a :: b :: bs) = pathWeight g (a :: [b]) + pathWeight g (b :: bs)
      rw [pathWeight, pathWeight]
      show _ = minW g a b + pathWeight g [b] + _
      rw [show pathWeight g [b] = 0 from rfl, add_zero]
    | cons a2 rest =>
      show pathWeight g (a :: a2 :: (rest ++ b :: bs)) = _
      rw [pathWeight,
        show (a :: a2 :: rest) ++ [b] = a :: a2 :: (rest ++ [b]) from rfl, pathWeight]
      rw [show a2 :: (rest ++ b :: bs) = (a2 :: rest) ++ b :: bs from rfl]
      rw [ih, add_assoc]
      rfl

theorem pathWeight_nonneg {g : GraphStore} (hg : g.Nonneg) (q : List ℕ) :
    0 ≤ pathWeight g q := by
  induction q with
  | nil => exact le_refl 0
  | cons a rest ih =>
    cases rest with
    | nil => exact le_refl 0
    | cons b rest2 =>
      rw [pathWeight]
      exact add_nonneg (minW_nonneg hg a b) ih

theorem isPathFrom_extend {g : GraphStore} {o u v : ℕ} {q : List ℕ}
    (hq : isPathFrom g o u q = true) (he : hasEdge g u v = true) :
    isPathFrom g o v (q ++ [v]) = true ∧
      pathWeight g (q ++ [v]) = pathWeight g q + minW g u v := by
  obtain ⟨h1, h2, h3⟩ := isPathFrom_iff.mp hq
  have hne : q ≠ [] := by rintro rfl; simp at h1
  obtain ⟨qf, rfl⟩ : ∃ qf, q = qf ++ [u] := by
    refine ⟨q.dropLast, ?_⟩
    rw [List.getLast?_eq_getLast q hne] at h2
    rw [Option.some.injEq] at h2
    rw [← h2]
    exact (List.dropLast_append_getLast hne).symm
  have hassoc : (qf ++ [u]) ++ [v] = qf ++ u :: [v] := by
    rw [List.append_assoc]
    rfl
  constructor
  · rw [isPathFrom_iff]
    refine ⟨?_, ?_, ?_⟩
    · rw [← h1]
      cases qf with
      | nil => rfl
      | cons a rest => rfl
    · rw [hassoc]
      rw [show qf ++ u :: [v] = (qf ++ [u]) ++ [v] from by rw [List.append_assoc]; rfl]
      exact List.getLast?_concat _
    · rw [hassoc, chain_append]
      rw [show chain g (u :: [v]) = (hasEdge g u v && true) from rfl]
      rw [he, h3]
      rfl
  · rw [hassoc, pathWeight_append]
    rw [show pathWeight g (u :: [v]) = minW g u v + pathWeight g [v] from rfl,
      show pathWeight g [v] = 0 from rfl, add_zero]

/-- A nonempty list whose head satisfies `P` and whose last element does
not contains a first crossing: a prefix inside `P` followed by an edge
out of `P`. -/
theorem exists_crossing (P : ℕ → Prop) [DecidablePred P] :
    ∀ (q : List ℕ) (x t : ℕ), q.head? = some x → q.getLast? = some t →
      P x → ¬P t →
      ∃ pre y z suf, q = pre ++ y :: z :: suf ∧ P y ∧ ¬P z ∧ ∀ w ∈ pre, P w := by
  intro q
  induction q with
  | nil => intro x t hx ht; simp at hx
  | cons a rest ih =>
    intro x t hx ht hPx hPt
    rw [List.head?_cons, Option.some.injEq] at hx
    subst hx
    cases rest with
    | nil =>
      rw [List.getLast?_singleton, Option.some.injEq] at ht
      subst ht
      exact absurd hPx hPt
    | cons b rest2 =>
      by_cases hPb : P b
      · have ht2 : (b :: rest2).getLast? = some t := by
          rw [List.getLast?_cons_cons] at ht
          exact ht
        obtain ⟨pre, y, z, suf, hsplit, hy, hz, hpre⟩ :=
          ih b t rfl ht2 hPb hPt
        refine ⟨a :: pre, y, z, suf, ?_, hy, hz, ?_⟩
        · rw [List.cons_append, ← hsplit]
        · intro w hw
          rcases List.mem_cons.mp hw with rfl | hw
          · exact hPx
          · exact hpre w hw
      · exact ⟨[], a, b, rest2, rfl, hPx, hPb, by simp⟩

theorem pickMinD_none {F : List DEntry} : pickMinD F = none ↔ F = [] := by
  cases F with
  | nil => simp [pickMinD]
  | cons e rest => cases h : pickMinD rest <;> simp [pickMinD, h]

theorem pickMinD_mem {F : List DEntry} {m : DEntry} (h : pickMinD F = some m) :
    m ∈ F := by
  induction F generalizing m with
  | nil => simp [pickMinD] at h
  | cons e rest ih =>
    cases hr : pickMinD rest with
    | none =>
      rw [pickMinD, hr] at h
      simp only [Option.some.injEq] at h
      simp [← h]
    | some m0 =>
      rw [pickMinD, hr] at h
      simp only [Option.some.injEq] at h
      by_cases hc : m0.dist < e.dist
      · rw [if_pos hc] at h
        exact List.mem_cons.mpr (Or.inr (h ▸ ih hr))
      · rw [if_neg hc] at h
        simp [← h]

theorem pickMinD_le {F : List DEntry} {m : DEntry} (h : pickMinD F = some m) :
    ∀ f ∈ F, m.dist ≤ f.dist := by
  induction F generalizing m with
  | nil => simp
  | cons e rest ih =>
    intro f hf
    cases hr : pickMinD rest with
    | none =>
      have hrest : rest = [] := pickMinD_none.mp hr
      subst hrest
      rw [pickMinD, hr] at h
      simp only [Option.some.injEq] at h
      rcases List.mem_cons.mp hf with rfl | hf2
      · exact h ▸ le_refl _
      · simp at hf2
    | some m0 =>
      rw [pickMinD, hr] at h
      simp only [Option.some.injEq] at h
      by_cases hc : m0.dist < e.dist
      · rw [if_pos hc] at h
        rcases List.mem_cons.mp hf with rfl | hf2
        · exact h ▸ hc.le
        · exact h ▸ ih hr f hf2
      · rw [if_neg hc] at h
        push_neg at hc
        rcases List.mem_cons.mp hf with rfl | hf2
        · exact h ▸ le_refl _
        · exact h ▸ (hc.trans (ih hr f hf2))

theorem upsert_mem {S F : List DEntry} {c f : DEntry}
    (h : f ∈ upsert S F c) : f ∈ F ∨ f = c := by
  unfold upsert at h
  split_ifs at h with h1 h2
  · exact Or.inl h
  · obtain ⟨f0, hf0, heq⟩ := List.mem_map.mp h
    by_cases hcond : f0.node = c.node ∧ c.dist < f0.dist
    · rw [if_pos hcond] at heq
      exact Or.inr heq.symm
    · rw [if_neg hcond] at heq
      exact Or.inl (heq ▸ hf0)
  · rcases List.mem_append.mp h with h3 | h3
    · exact Or.inl h3
    · simp only [List.mem_singleton] at h3
      exact Or.inr h3

theorem upsert_mono {S F : List DEntry} {c : DEntry} :
    ∀ f ∈ F, ∃ f2 ∈ upsert S F c, f2.node = f.node ∧ f2.dist ≤ f.dist := by
  intro f hf
  unfold upsert
  split_ifs with h1 h2
  · exact ⟨f, hf, rfl, le_refl _⟩
  · by_cases hcond : f.node = c.node ∧ c.dist < f.dist
    · refine ⟨c, ?_, hcond.1.symm, hcond.2.le⟩
      exact List.mem_map.mpr ⟨f, hf, by rw [if_pos hcond]⟩
    · refine ⟨f, ?_, rfl, le_refl _⟩
      exact List.mem_map.mpr ⟨f, hf, by rw [if_neg hcond]⟩
  · exact ⟨f, List.mem_append.mpr (Or.inl hf), rfl, le_refl _⟩

theorem upsert_covers {S : List DEntry} (F : List DEntry) (c : DEntry)
    (hns : ¬(S.map DEntry.node).contains c.node = true) :
    ∃ f ∈ upsert S F c, f.node = c.node ∧ f.dist ≤ c.dist := by
  unfold upsert
  rw [if_neg hns]
  split_ifs with h2
  · obtain ⟨f, hf, hfe⟩ := List.mem_map.mp (List.mem_of_elem_eq_true h2)
    by_cases hcond : f.node = c.node ∧ c.dist < f.dist
    · exact ⟨c, List.mem_map.mpr ⟨f, hf, by rw [if_pos hcond]⟩, rfl, le_refl _⟩
    · refine ⟨f, List.mem_map.mpr ⟨f, hf, by rw [if_neg hcond]⟩, hfe, ?_⟩
      exact not_lt.mp fun hlt => hcond ⟨hfe, hlt⟩
  · exact ⟨c, List.mem_append.mpr (Or.inr (by simp)), rfl, le_refl _⟩

theorem upsert_nodup {S F : List DEntry} {c : DEntry}
    (h : (F.map DEntry.node).Nodup) :
    ((upsert S F c).map DEntry.node).Nodup := by
  unfold upsert
  split_ifs with h1 h2
  · exact h
  · have hmap : (F.map fun f =>
        if f.node = c.node ∧ c.dist < f.dist then c else f).map DEntry.node
        = F.map DEntry.node := by
      rw [List.map_map]
      apply List.map_congr_left
      intro f hf
      by_cases hcond : f.node = c.node ∧ c.dist < f.dist
      · simp only [Function.comp_apply, if_pos hcond]
        exact hcond.1.symm
      · simp only [Function.comp_apply, if_neg hcond]
    rw [hmap]
    exact h
  · rw [List.map_append]
    refine List.Nodup.append h (by simp) ?_
    intro x hx hx2
    simp only [List.map_cons, List.map_nil, List.mem_singleton] at hx2
    subst hx2
    exact h2 (List.elem_eq_true_of_mem hx)

theorem upsert_disj {S F : List DEntry} {c : DEntry}
    (hd : ∀ s ∈ S, ∀ f ∈ F, s.node ≠ f.node) :
    ∀ s ∈ S, ∀ f ∈ upsert S F c, s.node ≠ f.node := by
  intro s hs f hf
  have hkey : ¬(S.map DEntry.node).contains c.node = true → s.node ≠ c.node := by
    intro h1 heq
    exact h1 (List.elem_eq_true_of_mem
      (heq ▸ List.mem_map.mpr ⟨s, hs, rfl⟩))
  unfold upsert at hf
  split_ifs at hf with h1 h2
  · exact hd s hs f hf
  · obtain ⟨f0, hf0, heq⟩ := List.mem_map.mp hf
    by_cases hcond : f0.node = c.node ∧ c.dist < f0.dist
    · rw [if_pos hcond] at heq
      exact heq ▸ hkey h1
    · rw [if_neg hcond] at heq
      exact heq ▸ hd s hs f0 hf0
  · rcases List.mem_append.mp hf with h3 | h3
    · exact hd s hs f h3
    · simp only [List.mem_singleton] at h3
      exact h3 ▸ hkey h1

theorem relaxAll_cons (S : List DEntry) (u : ℕ) (du : ℚ) (pu : List ℕ)
    (e : Edge) (E : List Edge) (F : List DEntry) :
    relaxAll S u du pu (e :: E) F =
      relaxAll S u du pu E
        (if e.src == u then upsert S F ⟨e.dst, du + e.weight, e.dst :: pu⟩ else F) :=
  rfl

theorem relaxAll_mem {S : List DEntry} {u : ℕ} {du : ℚ} {pu : List ℕ}
    {E : List Edge} {F : List DEntry} {f : DEntry}
    (h : f ∈ relaxAll S u du pu E F) :
    f ∈ F ∨ ∃ e ∈ E, e.src = u ∧ f = ⟨e.dst, du + e.weight, e.dst :: pu⟩ := by
  induction E generalizing F with
  | nil => exact Or.inl h
  | cons e E ih =>
    rw [relaxAll_cons] at h
    rcases ih h with h2 | h2
    · by_cases hsrc : (e.src == u) = true
      · rw [if_pos hsrc] at h2
        rcases upsert_mem h2 with h3 | h3
        · exact Or.inl h3
        · exact Or.inr ⟨e, by simp, by simpa using hsrc, h3⟩
      · rw [if_neg hsrc] at h2
        exact Or.inl h2
    · obtain ⟨e2, he2, h3, h4⟩ := h2
      exact Or.inr ⟨e2, List.mem_cons.mpr (Or.inr he2), h3, h4⟩

theorem relaxAll_mono {S : List DEntry} {u : ℕ} {du : ℚ} {pu : List ℕ}
    {E : List Edge} {F : List DEntry} :
    ∀ f ∈ F, ∃ f2 ∈ relaxAll S u du pu E F, f2.node = f.node ∧ f2.dist ≤ f.dist := by
  induction E generalizing F with
  | nil =>
    intro f hf
    exact ⟨f, hf, rfl, le_refl _⟩
  | cons e E ih =>
    intro f hf
    rw [relaxAll_cons]
    by_cases hsrc : (e.src == u) = true
    · rw [if_pos hsrc]
      obtain ⟨f1, hf1, he1, hd1⟩ := upsert_mono f hf
      obtain ⟨f2, hf2, he2, hd2⟩ := ih f1 hf1
      exact ⟨f2, hf2, he2.trans he1, hd2.trans hd1⟩
    · rw [if_neg hsrc]
      exact ih f hf

theorem relaxAll_covers {S : List DEntry} {u : ℕ} {du : ℚ} {pu : List ℕ}
    {E : List Edge} {F : List DEntry} :
    ∀ e ∈ E, e.src = u → ¬(S.map DEntry.node).contains e.dst = true →
      ∃ f ∈ relaxAll S u du pu E F, f.node = e.dst ∧ f.dist ≤ du + e.weight := by
  induction E generalizing F with
  | nil => simp
  | cons e0 E ih =>
    intro e he hsrc hns
    rw [relaxAll_cons]
    rcases List.mem_cons.mp he with rfl | he2
    · rw [if_pos (by simp [hsrc])]
      obtain ⟨f, hf, hfe, hfd⟩ :=
        upsert_covers F ⟨e.dst, du + e.weight, e.dst :: pu⟩ hns
      obtain ⟨f2, hf2, he2, hd2⟩ := relaxAll_mono f hf
      exact ⟨f2, hf2, he2.trans hfe, hd2.trans hfd⟩
    · by_cases hsrc0 : (e0.src == u) = true
      · rw [if_pos hsrc0]
        exact ih e he2 hsrc hns
      · rw [if_neg hsrc0]
        exact ih e he2 hsrc hns

theorem relaxAll_nodup {S : List DEntry} {u : ℕ} {du : ℚ} {pu : List ℕ}
    {E : List Edge} {F : List DEntry}
    (h : (F.map DEntry.node).Nodup) :
    ((relaxAll S u du pu E F).map DEntry.node).Nodup := by
  induction E generalizing F with
  | nil => exact h
  | cons e E ih =>
    rw [relaxAll_cons]
    by_cases hsrc : (e.src == u) = true
    · rw [if_pos hsrc]
      exact ih (upsert_nodup h)
    · rw [if_neg hsrc]
      exact ih h

theorem relaxAll_disj {S : List DEntry} {u : ℕ} {du : ℚ} {pu : List ℕ}
    {E : List Edge} {F : List DEntry}
    (hd : ∀ s ∈ S, ∀ f ∈ F, s.node ≠ f.node) :
    ∀ s ∈ S, ∀ f ∈ relaxAll S u du pu E F, s.node ≠ f.node := by
  induction E generalizing F with
  | nil => exact hd
  | cons e E ih =>
    rw [relaxAll_cons]
    by_cases hsrc : (e.src == u) = true
    · rw [if_pos hsrc]
      exact ih (upsert_disj hd)
    · rw [if_neg hsrc]
      exact ih hd

theorem head?_append_cons {α : Type} (l : List α) (a : α) (r : List α) :
    (l ++ a :: r).head? = (l ++ [a]).head? := by
  cases l <;> rfl

/-- Any path from the origin to an unsettled node is lower-bounded by
some frontier entry. -/
theorem dijkstra_cover {g : GraphStore} {o : ℕ} {S F : List DEntry}
    (hb : DInvB g o S F) (hm : DInvM g o S) (hnn : g.Nonneg)
    {t : ℕ} {q : List ℕ} (ht : t ∉ S.map DEntry.node)
    (hq : isPathFrom g o t q = true) :
    ∃ f ∈ F, f.dist ≤ pathWeight g q := by
  by_cases ho : o ∈ S.map DEntry.node
  · obtain ⟨h1, h2, h3⟩ := isPathFrom_iff.mp hq
    obtain ⟨pre, y, z, suf, hsplit, hy, hz, hpre⟩ :=
      exists_crossing (fun x => x ∈ S.map DEntry.node) q o t h1 h2 ho ht
    obtain ⟨sy, hsy, hsye⟩ := List.mem_map.mp hy
    subst hsplit
    -- pieces of the chain
    have hchain := h3
    rw [show pre ++ y :: z :: suf = pre ++ y :: (z :: suf) from rfl,
      chain_append, Bool.and_eq_true] at hchain
    have hchainpre : chain g (pre ++ [y]) = true := hchain.1
    have hchainsuf : chain g (y :: z :: suf) = true := hchain.2
    have hedge : hasEdge g y z = true := by
      rw [chain, Bool.and_eq_true] at hchainsuf
      exact hchainsuf.1
    -- the prefix is a path from o to y
    have hpq : isPathFrom g o y (pre ++ [y]) = true := by
      rw [isPathFrom_iff]
      refine ⟨?_, List.getLast?_concat _, hchainpre⟩
      rw [← head?_append_cons pre y (z :: suf)]
      exact h1
    -- weight decomposition
    have hw : pathWeight g (pre ++ y :: z :: suf) =
        pathWeight g (pre ++ [y]) + (minW g y z + pathWeight g (z :: suf)) := by
      rw [pathWeight_append]
      rfl
    -- cover along the cheapest y→z edge
    obtain ⟨e, he, hes, hed, hew⟩ := minW_exists_edge hedge
    rcases hb.cover sy hsy e he (by rw [hes, hsye]) with hin | ⟨f, hf, hfe, hfd⟩
    · exact absurd (hed ▸ hin) hz
    · refine ⟨f, hf, ?_⟩
      have hsyd : sy.dist ≤ pathWeight g (pre ++ [y]) := hm sy hsy _ (hsye ▸ hpq)
      have hsuf : 0 ≤ pathWeight g (z :: suf) := pathWeight_nonneg hnn _
      have hminw : 0 ≤ minW g y z := minW_nonneg hnn y z
      calc f.dist ≤ sy.dist + e.weight := hfd
        _ = sy.dist + minW g y z := by rw [hew]
        _ ≤ pathWeight g (pre ++ [y]) + (minW g y z + pathWeight g (z :: suf)) := by
            nlinarith
        _ = pathWeight g (pre ++ y :: z :: suf) := hw.symm
  · rcases hb.origin with ⟨s, hs, hse⟩ | ⟨f, hf, hfe, hfd⟩
    · exact absurd (List.mem_map.mpr ⟨s, hs, hse⟩) ho
    · exact ⟨f, hf, hfd.trans (pathWeight_nonneg hnn q)⟩

theorem mem_filter_ne {F : List DEntry} {m f : DEntry}
    (hf : f ∈ F.filter fun x => x.node != m.node) :
    f ∈ F ∧ f.node ≠ m.node := by
  have h1 := List.mem_of_mem_filter hf
  have h2 := List.of_mem_filter hf
  simp only [bne_iff_ne, ne_eq] at h2
  exact ⟨h1, h2⟩

theorem dijkstra_stepB {g : GraphStore} {o : ℕ} {S F : List DEntry}
    (hwf : g.WF) (hb : DInvB g o S F) {m : DEntry} (hpick : pickMinD F = some m) :
    DInvB g o (S ++ [m])
      (relaxAll (S ++ [m]) m.node m.dist m.path g.edges
        (F.filter fun f => f.node != m.node)) := by
  have hmF : m ∈ F := pickMinD_mem hpick
  have hmS : m.node ∉ S.map DEntry.node := by
    intro hmem
    obtain ⟨s, hs, hse⟩ := List.mem_map.mp hmem
    exact hb.disj s hs m hmF hse
  have hdisj1 : ∀ s ∈ S ++ [m], ∀ f ∈ F.filter fun x => x.node != m.node,
      s.node ≠ f.node := by
    intro s hs f hf
    obtain ⟨hfF, hfne⟩ := mem_filter_ne hf
    rcases List.mem_append.mp hs with hs2 | hs2
    · exact hb.disj s hs2 f hfF
    · simp only [List.mem_singleton] at hs2
      subst hs2
      exact fun h => hfne h.symm
  have hsoundm := hb.soundF m hmF
  constructor
  case soundS =>
    intro s hs
    rcases List.mem_append.mp hs with hs2 | hs2
    · exact hb.soundS s hs2
    · simp only [List.mem_singleton] at hs2
      subst hs2
      exact hsoundm
  case soundF =>
    intro f hf
    rcases relaxAll_mem hf with hf2 | ⟨e, he, hes, hfe⟩
    · exact hb.soundF f (mem_filter_ne hf2).1
    · subst hfe
      have hedge : hasEdge g m.node e.dst = true :=
        hasEdge_iff.mpr ⟨e, he, hes, rfl⟩
      obtain ⟨hext, hwext⟩ := isPathFrom_extend hsoundm.1 hedge
      constructor
      · simpa [List.reverse_cons] using hext
      · show pathWeight g (e.dst :: m.path).reverse ≤ m.dist + e.weight
        rw [List.reverse_cons, hwext]
        have h1 : pathWeight g m.path.reverse ≤ m.dist := hsoundm.2
        have h2 : minW g m.node e.dst ≤ e.weight := minW_le_edge he hes rfl
        linarith
  case disj => exact relaxAll_disj hdisj1
  case nodupF =>
    apply relaxAll_nodup
    exact hb.nodupF.sublist ((List.filter_sublist F).map DEntry.node)
  case nodupS =>
    rw [List.map_append]
    refine List.Nodup.append hb.nodupS (by simp) ?_
    intro x hx hx2
    simp only [List.map_cons, List.map_nil, List.mem_singleton] at hx2
    subst hx2
    exact hmS hx
  case keysS =>
    intro s hs
    rcases List.mem_append.mp hs with hs2 | hs2
    · exact hb.keysS s hs2
    · simp only [List.mem_singleton] at hs2
      subst hs2
      exact hb.keysF s hmF
  case keysF =>
    intro f hf
    rcases relaxAll_mem hf with hf2 | ⟨e, he, hes, hfe⟩
    · exact hb.keysF f (mem_filter_ne hf2).1
    · subst hfe
      exact (hwf.2 e he).2
  case origin =>
    rcases hb.origin with ⟨s, hs, hse⟩ | ⟨f, hf, hfe, hfd⟩
    · exact Or.inl ⟨s, List.mem_append.mpr (Or.inl hs), hse⟩
    · by_cases hfm : f.node = m.node
      · exact Or.inl ⟨m, List.mem_append.mpr (Or.inr (by simp)), hfm ▸ hfe⟩
      · have hfF1 : f ∈ F.filter fun x => x.node != m.node :=
          List.mem_filter.mpr ⟨hf, by simpa using hfm⟩
        obtain ⟨f2, hf2, hfe2, hfd2⟩ := relaxAll_mono f hfF1
        exact Or.inr ⟨f2, hf2, hfe2.trans hfe, hfd2.trans hfd⟩
  case cover =>
    intro s hs e he hes
    rcases List.mem_append.mp hs with hs2 | hs2
    · -- old settled node
      rcases hb.cover s hs2 e he hes with hin | ⟨f, hf, hfe, hfd⟩
      · exact Or.inl (by rw [List.map_append]; exact List.mem_append.mpr (Or.inl hin))
      · by_cases hfm : f.node = m.node
        · refine Or.inl ?_
          rw [List.map_append]
          refine List.mem_append.mpr (Or.inr ?_)
          simp [← hfe, hfm]
        · have hfF1 : f ∈ F.filter fun x => x.node != m.node :=
            List.mem_filter.mpr ⟨hf, by simpa using hfm⟩
          obtain ⟨f2, hf2, hfe2, hfd2⟩ := relaxAll_mono f hfF1
          exact Or.inr ⟨f2, hf2, hfe2.trans hfe, hfd2.trans hfd⟩
    · -- the newly settled node
      simp only [List.mem_singleton] at hs2
      subst hs2
      by_cases hin : e.dst ∈ (S ++ [s]).map DEntry.node
      · exact Or.inl hin
      · refine Or.inr ?_
        obtain ⟨f, hf, hfe, hfd⟩ := relaxAll_covers e he hes
          (fun hc => hin (List.mem_of_elem_eq_true hc))
        exact ⟨f, hf, hfe, hfd⟩

theorem dijkstra_stepM {g : GraphStore} {o : ℕ} {S F : List DEntry}
    (hb : DInvB g o S F) (hm : DInvM g o S) (hnn : g.Nonneg)
    {m : DEntry} (hpick : pickMinD F = some m) :
    DInvM g o (S ++ [m]) := by
  intro s hs q hq
  rcases List.mem_append.mp hs with hs2 | hs2
  · exact hm s hs2 q hq
  · simp only [List.mem_singleton] at hs2
    subst hs2
    have hmS : s.node ∉ S.map DEntry.node := by
      intro hmem
      obtain ⟨s2, hs2, hse⟩ := List.mem_map.mp hmem
      exact hb.disj s2 hs2 s (pickMinD_mem hpick) hse
    obtain ⟨f, hf, hfd⟩ := dijkstra_cover hb hm hnn hmS hq
    exact (pickMinD_le hpick f hf).trans hfd

/-- Once the frontier is empty, the settled set is closed under edges:
any path starting at a settled node ends at a settled node. -/
theorem settled_closed {g : GraphStore} {o : ℕ} {S : List DEntry}
    (hb : DInvB g o S []) :
    ∀ (q : List ℕ) (x t : ℕ), isPathFrom g x t q = true →
      x ∈ S.map DEntry.node → t ∈ S.map DEntry.node := by
  intro q
  induction q with
  | nil =>
    intro x t h
    rw [isPathFrom_iff] at h
    simp at h
  | cons a rest ih =>
    intro x t h hx
    obtain ⟨h1, h2, h3⟩ := isPathFrom_iff.mp h
    rw [List.head?_cons, Option.some.injEq] at h1
    subst h1
    cases rest with
    | nil =>
      rw [List.getLast?_singleton, Option.some.injEq] at h2
      exact h2 ▸ hx
    | cons y rest2 =>
      have hedge : hasEdge g a y = true := by
        rw [chain, Bool.and_eq_true] at h3
        exact h3.1
      have hchain2 : chain g (y :: rest2) = true := by
        rw [chain, Bool.and_eq_true] at h3
        exact h3.2
      obtain ⟨e, he, hes, hed⟩ := hasEdge_iff.mp hedge
      obtain ⟨sx, hsx, hsxe⟩ := List.mem_map.mp hx
      rcases hb.cover sx hsx e he (by rw [hes, hsxe]) with hin | ⟨f, hf, -⟩
      · refine ih y t ?_ (hed ▸ hin)
        rw [isPathFrom_iff]
        refine ⟨rfl, ?_, hchain2⟩
        rw [← h2, List.getLast?_cons_cons]
      · simp at hf

/-- The Dijkstra loop drains the frontier and preserves the
invariants. -/
theorem dijkstraLoop_spec {g : GraphStore} {o : ℕ} (hwf : g.WF) :
    ∀ (fuel : ℕ) (S F : List DEntry), DInvB g o S F →
      g.ids.length ≤ fuel + S.length →
      DInvB g o (dijkstraLoop g fuel S F) [] ∧
      (g.Nonneg → DInvM g o S → DInvM g o (dijkstraLoop g fuel S F)) := by
  intro fuel
  induction fuel with
  | zero =>
    intro S F hb hcount
    have hF : F = [] := by
      by_contra hne
      obtain ⟨f, hf⟩ := List.exists_mem_of_ne_nil F hne
      have hnd : (f.node :: S.map DEntry.node).Nodup := by
        rw [List.nodup_cons]
        refine ⟨fun hmem => ?_, hb.nodupS⟩
        obtain ⟨s, hs, hse⟩ := List.mem_map.mp hmem
        exact hb.disj s hs f hf hse
      have hsub : (f.node :: S.map DEntry.node) ⊆ g.ids := by
        intro x hx
        rcases List.mem_cons.mp hx with rfl | hx2
        · exact hb.keysF f hf
        · obtain ⟨s, hs, hse⟩ := List.mem_map.mp hx2
          exact hse ▸ hb.keysS s hs
      have hlen := (List.subperm_of_subset hnd hsub).length_le
      simp only [List.length_cons, List.length_map] at hlen
      omega
    subst hF
    exact ⟨hb, fun _ hm => hm⟩
  | succ fuel ih =>
    intro S F hb hcount
    cases hpick : pickMinD F with
    | none =>
      have hF : F = [] := pickMinD_none.mp hpick
      subst hF
      have hres : dijkstraLoop g (fuel + 1) S [] = S := by
        rw [dijkstraLoop, hpick]
      rw [hres]
      exact ⟨hb, fun _ hm => hm⟩
    | some m =>
      have hb2 := dijkstra_stepB hwf hb hpick
      have hcount2 : g.ids.length ≤ fuel + (S ++ [m]).length := by
        rw [List.length_append, List.length_singleton]
        omega
      have hres : dijkstraLoop g (fuel + 1) S F =
          dijkstraLoop g fuel (S ++ [m])
            (relaxAll (S ++ [m]) m.node m.dist m.path g.edges
              (F.filter fun f => f.node != m.node)) := by
        rw [dijkstraLoop, hpick]
      rw [hres]
      have hmain := ih (S ++ [m]) _ hb2 hcount2
      exact ⟨hmain.1, fun hnn hm =>
        hmain.2 hnn (dijkstra_stepM hb hm hnn hpick)⟩

/-- The invariants hold for the finished Dijkstra run. -/
theorem dijkstra_final {g : GraphStore} {origen : ℕ} (hwf : g.WF)
    (ho : origen ∈ g.ids) :
    DInvB g origen (dijkstraLoop g g.nodes.length [] [⟨origen, 0, [origen]⟩]) [] ∧
    (g.Nonneg →
      DInvM g origen (dijkstraLoop g g.nodes.length [] [⟨origen, 0, [origen]⟩])) := by
  have hinit : DInvB g origen [] [⟨origen, 0, [origen]⟩] := by
    constructor
    case soundS => simp
    case soundF =>
      intro f hf
      simp only [List.mem_singleton] at hf
      subst hf
      constructor
      · show isPathFrom g origen origen [origen] = true
        rw [isPathFrom_iff]
        exact ⟨rfl, rfl, rfl⟩
      · exact le_refl 0
    case disj => simp
    case nodupF => simp
    case nodupS => simp
    case keysS => simp
    case keysF =>
      intro f hf
      simp only [List.mem_singleton] at hf
      subst hf
      exact ho
    case origin => exact Or.inr ⟨⟨origen, 0, [origen]⟩, by simp, rfl, le_refl 0⟩
    case cover => simp
  have hcount : g.ids.length ≤ g.nodes.length + ([] : List DEntry).length := by
    simp [GraphStore.ids]
  have hmain := dijkstraLoop_spec hwf g.nodes.length [] [⟨origen, 0, [origen]⟩]
    hinit hcount
  refine ⟨hmain.1, fun hnn => hmain.2 hnn ?_⟩
  intro s hs
  simp at hs

/-- C1 (claims file): with non-negative weights and both endpoints in
the store, when the shortest-path engine returns a found path, that
path runs from the origin to the destination in the store and its total
weight (the sum of the traversed edges' weights) attains the minimum
total weight over all directed origin-to-destination paths. -/
theorem dijkstra_optimal (g : GraphStore) (origen destino : ℕ) (p : List ℕ)
    (hwf : g.WF) (hnn : g.Nonneg) (ho : origen ∈ g.ids) (hd : destino ∈ g.ids)
    (hres : ruta_optima_dijkstra g origen destino = .ok (.found p)) :
    isPathFrom g origen destino p = true ∧
      ∀ q, isPathFrom g origen destino q = true →
        pathWeight g p ≤ pathWeight g q := by
  obtain ⟨hfin, hfinM⟩ := dijkstra_final hwf ho
  rw [ruta_optima_dijkstra, if_pos ⟨ho, hd⟩] at hres
  cases hfind : (dijkstraLoop g g.nodes.length [] [⟨origen, 0, [origen]⟩]).find?
      (fun s => s.node == destino) with
  | none =>
    rw [hfind] at hres
    simp at hres
  | some s =>
    rw [hfind] at hres
    simp only [Except.ok.injEq, PathResult.found.injEq] at hres
    have hsmem := List.mem_of_find?_eq_some hfind
    have hsnode : s.node = destino := by
      have := List.find?_some hfind
      simpa using this
    obtain ⟨hpath, hwle⟩ := hfin.soundS s hsmem
    have hmin := hfinM hnn s hsmem
    rw [hsnode] at hpath hmin
    rw [← hres]
    exact ⟨hpath, fun q hq => le_trans hwle (hmin q hq)⟩

/-- C5 (claims file): with both endpoints present, the engine returns
the explicit `NoPathFound` alternative result exactly when no directed
path exists, and a found `Path` in every other case — never an
exception-style error. -/
theorem dijkstra_no_path (g : GraphStore) (origen destino : ℕ)
    (hwf : g.WF) (ho : origen ∈ g.ids) (hd : destino ∈ g.ids) :
    ((¬∃ q, isPathFrom g origen destino q = true) →
      ruta_optima_dijkstra g origen destino = .ok .noPathFound) ∧
    ((∃ q, isPathFrom g origen destino q = true) →
      ∃ p, ruta_optima_dijkstra g origen destino = .ok (.found p) ∧
        isPathFrom g origen destino p = true) := by
  obtain ⟨hfin, -⟩ := dijkstra_final hwf ho
  rw [ruta_optima_dijkstra, if_pos ⟨ho, hd⟩]
  cases hfind : (dijkstraLoop g g.nodes.length [] [⟨origen, 0, [origen]⟩]).find?
      (fun s => s.node == destino) with
  | none =>
    constructor
    · intro _
      rfl
    · rintro ⟨q, hq⟩
      have ho2 : origen ∈
          (dijkstraLoop g g.nodes.length [] [⟨origen, 0, [origen]⟩]).map
            DEntry.node := by
        rcases hfin.origin with ⟨s, hs, hse⟩ | ⟨f, hf, -⟩
        · exact List.mem_map.mpr ⟨s, hs, hse⟩
        · simp at hf
      have hd2 := settled_closed hfin q origen destino hq ho2
      obtain ⟨s, hs, hse⟩ := List.mem_map.mp hd2
      have hnone := List.find?_eq_none.mp hfind s hs
      simp [hse] at hnone
  | some s =>
    have hsmem := List.mem_of_find?_eq_some hfind
    have hsnode : s.node = destino := by
      have := List.find?_some hfind
      simpa using this
    obtain ⟨hpath, -⟩ := hfin.soundS s hsmem
    constructor
    · intro hno
      exact absurd ⟨s.path.reverse, hsnode ▸ hpath⟩ hno
    · intro _
      exact ⟨s.path.reverse, rfl, hsnode ▸ hpath⟩

/-- C6 (claims file): when the origin or the destination is not a node
of the store, the shortest-path engine fails synchronously with the
`UnknownNode` error. -/
theorem dijkstra_unknown (g : GraphStore) (origen destino : ℕ)
    (h : origen ∉ g.ids ∨ destino ∉ g.ids) :
    ruta_optima_dijkstra g origen destino = .error .unknownNode := by
  rw [ruta_optima_dijkstra, if_neg (by tauto)]

/-- The scenario store satisfies the construction invariant. -/
theorem gEx_wf : gEx.WF :=
  ⟨by decide, by decide⟩

/-- The scenario store has non-negative weights. -/
theorem gEx_nonneg : gEx.Nonneg := by
  show ∀ e ∈ gEx.edges, 0 ≤ e.weight
  decide

/-- The engine's route on the scenario store. -/
theorem gEx_route : ruta_optima_dijkstra gEx 1 3 = .ok (.found [1, 2, 3]) := by
  with_unfolding_all rfl

/-- Witness for C1 on the scenario store: the engine returns the route
`[1, 2, 3]` (weight 2), beating the direct edge of weight 5. -/
theorem dijkstra_optimal_witness :
    gEx.WF ∧ gEx.Nonneg ∧ 1 ∈ gEx.ids ∧ 3 ∈ gEx.ids ∧
    ruta_optima_dijkstra gEx 1 3 = .ok (.found [1, 2, 3]) ∧
    (isPathFrom gEx 1 3 [1, 2, 3] = true ∧
      ∀ q, isPathFrom gEx 1 3 q = true →
        pathWeight gEx [1, 2, 3] ≤ pathWeight gEx q) :=
  ⟨gEx_wf, gEx_nonneg, by decide, by decide, gEx_route,
    dijkstra_optimal gEx 1 3 [1, 2, 3] gEx_wf gEx_nonneg
      (by decide) (by decide) gEx_route⟩

/-- Witness for C5 on the scenario store between nodes 1 and 3. -/
theorem dijkstra_no_path_witness :
    gEx.WF ∧ 1 ∈ gEx.ids ∧ 3 ∈ gEx.ids ∧
    (((¬∃ q, isPathFrom gEx 1 3 q = true) →
      ruta_optima_dijkstra gEx 1 3 = .ok .noPathFound) ∧
    ((∃ q, isPathFrom gEx 1 3 q = true) →
      ∃ p, ruta_optima_dijkstra gEx 1 3 = .ok (.found p) ∧
        isPathFrom gEx 1 3 p = true)) :=
  ⟨gEx_wf, by decide, by decide,
    dijkstra_no_path gEx 1 3 gEx_wf (by decide) (by decide)⟩

/-- Witness for C6: querying the scenario store with the absent origin
identifier 99. -/
theorem dijkstra_unknown_witness :
    (99 ∉ gEx.ids ∨ 3 ∉ gEx.ids) ∧
    ruta_optima_dijkstra gEx 99 3 = .error .unknownNode :=
  ⟨Or.inl (by decide), dijkstra_unknown gEx 99 3 (Or.inl (by decide))⟩

/-! Connectivity through unordered pair sets. -/

theorem adjF_symm {F : Finset (ℕ × ℕ)} : Symmetric (adjF F) := by
  intro a b h
  exact h.elim Or.inr Or.inl

theorem reachF_refl {F : Finset (ℕ × ℕ)} {a : ℕ} : ReachF F a a :=
  Relation.ReflTransGen.refl

theorem reachF_symm {F : Finset (ℕ × ℕ)} {a b : ℕ} (h : ReachF F a b) :
    ReachF F b a :=
  Relation.ReflTransGen.symmetric adjF_symm h

theorem reachF_trans {F : Finset (ℕ × ℕ)} {a b c : ℕ} (h1 : ReachF F a b)
    (h2 : ReachF F b c) : ReachF F a c :=
  Relation.ReflTransGen.trans h1 h2

theorem reachF_adj {F : Finset (ℕ × ℕ)} {a b : ℕ} (h : adjF F a b) :
    ReachF F a b :=
  Relation.ReflTransGen.single h

theorem reachF_mono {F G : Finset (ℕ × ℕ)} (hFG : F ⊆ G) {a b : ℕ}
    (h : ReachF F a b) : ReachF G a b :=
  Relation.ReflTransGen.mono (fun _ _ hxy => hxy.imp (fun h1 => hFG h1) (fun h2 => hFG h2)) h

theorem reachF_le_of_pairs {F G : Finset (ℕ × ℕ)}
    (h : ∀ p ∈ F, ReachF G p.1 p.2) {a b : ℕ} (hr : ReachF F a b) :
    ReachF G a b := by
  induction hr with
  | refl => exact reachF_refl
  | tail hab hstep ih =>
    refine reachF_trans ih ?_
    rcases hstep with hm | hm
    · exact h _ hm
    · exact reachF_symm (h _ hm)

theorem reachF_isolated {F : Finset (ℕ × ℕ)} {y : ℕ}
    (hy : ∀ q ∈ F, q.1 ≠ y ∧ q.2 ≠ y) {b : ℕ} (h : ReachF F y b) : y = b := by
  rcases Relation.ReflTransGen.cases_head h with heq | ⟨c, hstep, _⟩
  · exact heq
  · rcases hstep with hm | hm
    · exact absurd rfl (hy _ hm).1
    · exact absurd rfl (hy _ hm).2

theorem reachF_insert_iff {F : Finset (ℕ × ℕ)} {p : ℕ × ℕ} {a b : ℕ} :
    ReachF (insert p F) a b ↔
      ReachF F a b ∨ (ReachF F a p.1 ∧ ReachF F p.2 b) ∨
        (ReachF F a p.2 ∧ ReachF F p.1 b) := by
  constructor
  · intro h
    induction h with
    | refl => exact Or.inl reachF_refl
    | tail hab hstep ih =>
      rename_i x y
      rcases hstep with hm | hm
      · rcases Finset.mem_insert.mp hm with heq | hF
        · subst heq
          rcases ih with h1 | ⟨h1, h2⟩ | ⟨h1, h2⟩
          · exact Or.inr (Or.inl ⟨h1, reachF_refl⟩)
          · exact Or.inr (Or.inl ⟨h1, reachF_refl⟩)
          · exact Or.inl h1
        · rcases ih with h1 | ⟨h1, h2⟩ | ⟨h1, h2⟩
          · exact Or.inl (h1.tail (Or.inl hF))
          · exact Or.inr (Or.inl ⟨h1, h2.tail (Or.inl hF)⟩)
          · exact Or.inr (Or.inr ⟨h1, h2.tail (Or.inl hF)⟩)
      · rcases Finset.mem_insert.mp hm with heq | hF
        · subst heq
          rcases ih with h1 | ⟨h1, h2⟩ | ⟨h1, h2⟩
          · exact Or.inr (Or.inr ⟨h1, reachF_refl⟩)
          · exact Or.inl h1
          · exact Or.inr (Or.inr ⟨h1, reachF_refl⟩)
        · rcases ih with h1 | ⟨h1, h2⟩ | ⟨h1, h2⟩
          · exact Or.inl (h1.tail (Or.inr hF))
          · exact Or.inr (Or.inl ⟨h1, h2.tail (Or.inr hF)⟩)
          · exact Or.inr (Or.inr ⟨h1, h2.tail (Or.inr hF)⟩)
  · intro h
    have hp : ReachF (insert p F) p.1 p.2 :=
      reachF_adj (Or.inl (Finset.mem_insert_self p F))
    have hmono : ∀ x y : ℕ, ReachF F x y → ReachF (insert p F) x y :=
      fun _ _ => reachF_mono (Finset.subset_insert p F)
    rcases h with h | ⟨h1, h2⟩ | ⟨h1, h2⟩
    · exact hmono _ _ h
    · exact reachF_trans (reachF_trans (hmono _ _ h1) hp) (hmono _ _ h2)
    · exact reachF_trans (reachF_trans (hmono _ _ h1) (reachF_symm hp)) (hmono _ _ h2)

/-! Walks through pair sets, and extraction of duplicate-free walks. -/

theorem chain'_imp_mem {R S : ℕ → ℕ → Prop} (l : List ℕ) (h : l.Chain' R)
    (himp : ∀ c d, c ∈ l → d ∈ l → R c d → S c d) : l.Chain' S := by
  induction l with
  | nil => trivial
  | cons a rest ih =>
    cases rest with
    | nil => simp
    | cons b rest2 =>
      rw [List.chain'_cons] at h ⊢
      refine ⟨himp a b (by simp) (by simp) h.1, ?_⟩
      exact ih h.2 fun c d hc hd => himp c d (List.mem_cons_of_mem a hc)
        (List.mem_cons_of_mem a hd)

theorem dup_split {w : List ℕ} (h : ¬w.Nodup) :
    ∃ x u v t, w = (u ++ x :: v) ++ x :: t := by
  obtain ⟨x, hx⟩ := List.exists_duplicate_iff_not_nodup.mpr h
  have hcount := List.duplicate_iff_two_le_count.mp hx
  obtain ⟨u, rest, rfl⟩ := List.append_of_mem hx.mem
  rw [List.count_append, List.count_cons_self] at hcount
  by_cases hrest : x ∈ rest
  · obtain ⟨v, t, rfl⟩ := List.append_of_mem hrest
    exact ⟨x, u, v, t, by simp⟩
  · have hu : x ∈ u := by
      have h0 : List.count x rest = 0 := by
        by_contra hc
        exact hrest (List.count_pos_iff.mp (Nat.pos_of_ne_zero hc))
      have : 0 < List.count x u := by omega
      exact List.count_pos_iff.mp this
    obtain ⟨u1, u2, rfl⟩ := List.append_of_mem hu
    exact ⟨x, u1, u2, rest, by simp⟩

theorem exists_nodup_walk_aux (F : Finset (ℕ × ℕ)) :
    ∀ (n : ℕ) (w : List ℕ), w.length ≤ n → w.Chain' (adjF F) →
      ∃ w2 : List ℕ, w2.Chain' (adjF F) ∧ w2.head? = w.head? ∧
        w2.getLast? = w.getLast? ∧ w2.Nodup := by
  intro n
  induction n with
  | zero =>
    intro w hlen _
    rw [Nat.le_zero, List.length_eq_zero] at hlen
    subst hlen
    exact ⟨[], trivial, rfl, rfl, List.nodup_nil⟩
  | succ n ih =>
    intro w hlen hch
    by_cases hnd : w.Nodup
    · exact ⟨w, hch, rfl, rfl, hnd⟩
    · obtain ⟨x, u, v, t, rfl⟩ := dup_split hnd
      have hsplit := List.chain'_append.mp hch
      have hsplit2 := List.chain'_append.mp hsplit.1
      have hxt : (x :: t).Chain' (adjF F) := hsplit.2.1
      have hnew : (u ++ x :: t).Chain' (adjF F) := by
        refine List.chain'_append.mpr ⟨hsplit2.1, hxt, ?_⟩
        intro c hc y hy
        have hyx : x = y := by simpa using hy
        subst hyx
        exact hsplit2.2.2 c hc x (by simp)
      have hlen2 : (u ++ x :: t).length ≤ n := by
        simp only [List.length_append, List.length_cons] at hlen ⊢
        omega
      obtain ⟨w2, hc2, hh2, hl2, hnd2⟩ := ih (u ++ x :: t) hlen2 hnew
      refine ⟨w2, hc2, ?_, ?_, hnd2⟩
      · rw [hh2]; cases u <;> simp
      · rw [hl2]
        rw [List.getLast?_append_of_ne_nil u (List.cons_ne_nil x t),
          List.getLast?_append_of_ne_nil (u ++ x :: v) (List.cons_ne_nil x t)]

theorem reachF_of_walk {F : Finset (ℕ × ℕ)} {w : List ℕ} {a b : ℕ}
    (hch : w.Chain' (adjF F)) (ha : w.head? = some a) (hb : w.getLast? = some b) :
    ReachF F a b := by
  cases w with
  | nil => simp at ha
  | cons c l =>
    rw [List.head?_cons, Option.some.injEq] at ha
    subst ha
    rw [List.getLast?_eq_getLast_of_ne_nil (List.cons_ne_nil c l),
      Option.some.injEq] at hb
    exact List.relationReflTransGen_of_exists_chain l hch hb

theorem exists_nodup_walk {F : Finset (ℕ × ℕ)} {a b : ℕ} (h : ReachF F a b) :
    ∃ w : List ℕ, w.Chain' (adjF F) ∧ w.head? = some a ∧
      w.getLast? = some b ∧ w.Nodup := by
  obtain ⟨l, hch, hlast⟩ := List.exists_chain_of_relationReflTransGen h
  obtain ⟨w2, hch2, hh2, hl2, hnd2⟩ :=
    exists_nodup_walk_aux F (a :: l).length (a :: l) le_rfl
      (show (a :: l).Chain' (adjF F) from hch)
  refine ⟨w2, hch2, by rw [hh2]; rfl, ?_, hnd2⟩
  rw [hl2, List.getLast?_eq_getLast_of_ne_nil (List.cons_ne_nil a l), hlast]

theorem reachF_crossing {F : Finset (ℕ × ℕ)} (P : ℕ → Prop) [DecidablePred P]
    {s d : ℕ} (h : ReachF F s d) (hs : P s) (hd : ¬P d) :
    ∃ q ∈ F, ∃ a b : ℕ, (q = (a, b) ∨ q = (b, a)) ∧ P a ∧ ¬P b ∧
      ReachF (F.erase q) s a ∧ ReachF (F.erase q) b d := by
  obtain ⟨w, hch, hh, hl, hnd⟩ := exists_nodup_walk h
  obtain ⟨pre, a, b, suf, hsplit, hPa, hPb, hpre⟩ :=
    exists_crossing P w s d hh hl hs hd
  subst hsplit
  have hsufchain : (a :: b :: suf).Chain' (adjF F) :=
    hch.suffix (List.suffix_append pre (a :: b :: suf))
  have hadj : adjF F a b := (List.chain'_cons.mp hsufchain).1
  have hbnot : b ∉ pre ++ [a] := by
    intro hmem
    rcases List.mem_append.mp hmem with hm | hm
    · exact hPb (hpre b hm)
    · rw [List.mem_singleton] at hm
      subst hm
      exact hPb hPa
  have hanot : a ∉ b :: suf := by
    have hnd2 : (a :: b :: suf).Nodup :=
      hnd.sublist (List.suffix_append pre (a :: b :: suf)).sublist
    exact (List.nodup_cons.mp hnd2).1
  have hprechain : (pre ++ [a]).Chain' (adjF F) :=
    hch.prefix ⟨b :: suf, by simp⟩
  have hhead : (pre ++ [a]).head? = some s := by
    cases pre with
    | nil => simpa using hh
    | cons p ps => simpa using hh
  have hlastpre : (pre ++ [a]).getLast? = some a := by
    rw [List.getLast?_append_of_ne_nil pre (List.cons_ne_nil a [])]
    rfl
  have hlastsuf : (b :: suf).getLast? = some d := by
    rw [List.getLast?_append_of_ne_nil pre (List.cons_ne_nil a (b :: suf)),
      List.getLast?_cons_cons] at hl
    exact hl
  have key : ∀ qq : ℕ × ℕ, (qq.1 = a ∨ qq.2 = a) → (qq.1 = b ∨ qq.2 = b) →
      ReachF (F.erase qq) s a ∧ ReachF (F.erase qq) b d := by
    intro qq hqa hqb
    constructor
    · refine reachF_of_walk (chain'_imp_mem (pre ++ [a]) hprechain ?_) hhead hlastpre
      intro c e hc he hr
      have hcb : c ≠ b := fun heq => hbnot (heq ▸ hc)
      have heb : e ≠ b := fun heq => hbnot (heq ▸ he)
      rcases hr with h1 | h1
      · refine Or.inl (Finset.mem_erase.mpr ⟨?_, h1⟩)
        intro heq
        subst heq
        rcases hqb with hq | hq
        · exact hcb hq
        · exact heb hq
      · refine Or.inr (Finset.mem_erase.mpr ⟨?_, h1⟩)
        intro heq
        subst heq
        rcases hqb with hq | hq
        · exact heb hq
        · exact hcb hq
    · refine reachF_of_walk (chain'_imp_mem (b :: suf) hsufchain.tail ?_) rfl hlastsuf
      intro c e hc he hr
      have hca : c ≠ a := fun heq => hanot (heq ▸ hc)
      have hea : e ≠ a := fun heq => hanot (heq ▸ he)
      rcases hr with h1 | h1
      · refine Or.inl (Finset.mem_erase.mpr ⟨?_, h1⟩)
        intro heq
        subst heq
        rcases hqa with hq | hq
        · exact hca hq
        · exact hea hq
      · refine Or.inr (Finset.mem_erase.mpr ⟨?_, h1⟩)
        intro heq
        subst heq
        rcases hqa with hq | hq
        · exact hea hq
        · exact hca hq
  rcases hadj with hm | hm
  · exact ⟨(a, b), hm, a, b, Or.inl rfl, hPa, hPb,
      (key (a, b) (Or.inl rfl) (Or.inr rfl)).1, (key (a, b) (Or.inl rfl) (Or.inr rfl)).2⟩
  · exact ⟨(b, a), hm, a, b, Or.inr rfl, hPa, hPb,
      (key (b, a) (Or.inr rfl) (Or.inl rfl)).1, (key (b, a) (Or.inr rfl) (Or.inl rfl)).2⟩

/-! Prim candidate selection. -/

theorem pickMinP_none {l : List PEdge} : pickMinP l = none ↔ l = [] := by
  cases l with
  | nil => simp [pickMinP]
  | cons e rest => cases h : pickMinP rest <;> simp [pickMinP, h]

theorem pickMinP_mem {l : List PEdge} {m : PEdge} (h : pickMinP l = some m) :
    m ∈ l := by
  induction l generalizing m with
  | nil => simp [pickMinP] at h
  | cons e rest ih =>
    cases hr : pickMinP rest with
    | none =>
      rw [pickMinP, hr] at h
      simp only [Option.some.injEq] at h
      simp [← h]
    | some m0 =>
      rw [pickMinP, hr] at h
      simp only [Option.some.injEq] at h
      by_cases hc : m0.w < e.w
      · rw [if_pos hc] at h
        exact List.mem_cons.mpr (Or.inr (h ▸ ih hr))
      · rw [if_neg hc] at h
        simp [← h]

theorem pickMinP_le {l : List PEdge} {m : PEdge} (h : pickMinP l = some m) :
    ∀ c ∈ l, m.w ≤ c.w := by
  induction l generalizing m with
  | nil => simp
  | cons e rest ih =>
    intro c hc0
    cases hr : pickMinP rest with
    | none =>
      have hrest : rest = [] := pickMinP_none.mp hr
      subst hrest
      rw [pickMinP, hr] at h
      simp only [Option.some.injEq] at h
      rcases List.mem_cons.mp hc0 with rfl | hf2
      · exact h ▸ le_refl _
      · simp at hf2
    | some m0 =>
      rw [pickMinP, hr] at h
      simp only [Option.some.injEq] at h
      by_cases hcc : m0.w < e.w
      · rw [if_pos hcc] at h
        rcases List.mem_cons.mp hc0 with rfl | hf2
        · exact h ▸ hcc.le
        · exact h ▸ ih hr c hf2
      · rw [if_neg hcc] at h
        push_neg at hcc
        rcases List.mem_cons.mp hc0 with rfl | hf2
        · exact h ▸ le_refl _
        · exact h ▸ (hcc.trans (ih hr c hf2))

theorem primCandidates_mem {h : GraphStore} {visited : List ℕ} {e : PEdge} :
    e ∈ primCandidates h visited ↔
      e.x ∈ visited ∧ e.y ∈ h.ids ∧ e.y ∉ visited ∧
        hasEdge h e.x e.y = true ∧ e.w = minW h e.x e.y := by
  obtain ⟨ex, ey, ew⟩ := e
  simp only [primCandidates, List.mem_flatMap, List.mem_map, List.mem_filter]
  constructor
  · rintro ⟨x, hx, y, ⟨hy, hcond⟩, heq⟩
    rw [Bool.and_eq_true, Bool.not_eq_true'] at hcond
    injection heq with h1 h2 h3
    subst h1
    subst h2
    subst h3
    refine ⟨hx, hy, ?_, hcond.2, rfl⟩
    intro hmem
    exact absurd (hcond.1.symm.trans (List.elem_eq_true_of_mem hmem))
      Bool.false_ne_true
  · rintro ⟨hx, hy, hny, hedge, hw⟩
    refine ⟨ex, hx, ey, ⟨hy, ?_⟩, by rw [hw]⟩
    rw [Bool.and_eq_true, Bool.not_eq_true']
    refine ⟨?_, hedge⟩
    cases hb : visited.contains ey with
    | false => rfl
    | true => exact absurd (List.mem_of_elem_eq_true hb) hny

/-! Facts about the undirected projection used by Prim. -/

theorem proj_ids (g : GraphStore) : (undirectedProjection g).ids = g.ids := rfl

theorem projSym (g : GraphStore) : HSym (undirectedProjection g) := by
  intro a b
  constructor
  · cases hc : hasEdge (undirectedProjection g) a b with
    | false =>
      cases hc2 : hasEdge (undirectedProjection g) b a with
      | false => rfl
      | true =>
        have h3 := ((hasEdge_proj g a b).mpr ((hasEdge_proj g b a).mp hc2).symm)
        rw [hc] at h3
        exact absurd h3 Bool.false_ne_true
    | true =>
      cases hc2 : hasEdge (undirectedProjection g) b a with
      | false =>
        have h3 := ((hasEdge_proj g b a).mpr ((hasEdge_proj g a b).mp hc).symm)
        rw [hc2] at h3
        exact absurd h3 Bool.false_ne_true
      | true => rfl
  · by_cases hm : normPair a b ∈ pairList g
    · have hm2 : normPair b a ∈ pairList g := by
        rw [normPair_comm]
        exact hm
      rw [minW_proj g hm, minW_proj g hm2, uW_comm]
    · have hm2 : ¬normPair b a ∈ pairList g := by
        rw [normPair_comm]
        exact hm
      rw [minW, minW, edgesBetween_proj, edgesBetween_proj, if_neg hm, if_neg hm2]

theorem pairList_mem_ids {g : GraphStore} (hwf : g.WF) {p : ℕ × ℕ}
    (hp : p ∈ pairList g) : p.1 ∈ g.ids ∧ p.2 ∈ g.ids := by
  rw [pairList, List.mem_dedup, List.mem_map] at hp
  obtain ⟨e, he, rfl⟩ := hp
  obtain ⟨h1, h2⟩ := hwf.2 e he
  rw [normPair]
  split_ifs
  · exact ⟨h1, h2⟩
  · exact ⟨h2, h1⟩

theorem projWF {g : GraphStore} (hwf : g.WF) : (undirectedProjection g).WF := by
  refine ⟨hwf.1, ?_⟩
  intro e he
  rw [undirectedProjection, List.mem_flatMap] at he
  obtain ⟨p, hp, hpe⟩ := he
  obtain ⟨hp1, hp2⟩ := pairList_mem_ids hwf hp
  rw [projEdges] at hpe
  split_ifs at hpe with hd
  · rw [List.mem_singleton] at hpe
    subst hpe
    exact ⟨hp1, hp2⟩
  · rw [List.mem_cons, List.mem_singleton] at hpe
    rcases hpe with hpe | hpe
    · subst hpe
      exact ⟨hp1, hp2⟩
    · subst hpe
      exact ⟨hp2, hp1⟩

theorem uW_nonneg {g : GraphStore} (hnn : g.Nonneg) (u v : ℕ) : 0 ≤ uW g u v := by
  rw [uW]
  cases hl : listMin (edgesBetween g u v ++ edgesBetween g v u) with
  | none => exact le_refl 0
  | some m =>
    have hm := listMin_mem hl
    rcases List.mem_append.mp hm with hm2 | hm2 <;>
      · obtain ⟨e, he, -, -, hw⟩ := mem_edgesBetween.mp hm2
        exact hw ▸ hnn e he

theorem pairW_nonneg {g : GraphStore} (hnn : g.Nonneg) (p : ℕ × ℕ) :
    0 ≤ pairW g p :=
  uW_nonneg hnn p.1 p.2

theorem pairW_normPair {h : GraphStore} (hsym : HSym h) {a b : ℕ}
    (hab : hasEdge h a b = true) : pairW h (normPair a b) = minW h a b := by
  have hba : hasEdge h b a = true := by
    rw [← (hsym a b).1]
    exact hab
  have huW : uW h a b = minW h a b := by
    rw [uW_both hab hba, (hsym a b).2, min_self]
  rw [pairW, normPair]
  split_ifs
  · exact huW
  · rw [uW_comm]
    exact huW

/-! Small helpers about normalized pairs and tree pair sets. -/

theorem adjF_of_normPair_mem {F : Finset (ℕ × ℕ)} {x y : ℕ}
    (h : normPair x y ∈ F) : adjF F x y := by
  rw [normPair] at h
  split_ifs at h
  · exact Or.inl h
  · exact Or.inr h

theorem reachF_normPair {F : Finset (ℕ × ℕ)} {x y : ℕ} (h : ReachF F x y) :
    ReachF F (normPair x y).1 (normPair x y).2 := by
  rw [normPair]
  split_ifs
  · exact h
  · exact reachF_symm h

theorem normPair_comps (x y : ℕ) :
    ((normPair x y).1 = x ∧ (normPair x y).2 = y) ∨
      ((normPair x y).1 = y ∧ (normPair x y).2 = x) := by
  rw [normPair]
  split_ifs
  · exact Or.inl ⟨rfl, rfl⟩
  · exact Or.inr ⟨rfl, rfl⟩

theorem treePairs_append_toFinset (T : List PEdge) (e : PEdge) :
    (treePairs (T ++ [e])).toFinset =
      insert (normPair e.x e.y) (treePairs T).toFinset := by
  simp only [treePairs, List.map_append, List.map_cons, List.map_nil,
    List.toFinset_append, List.toFinset_cons, List.toFinset_nil]
  rw [Finset.union_comm]
  simp [Finset.insert_eq]

theorem treePairs_comp {T : List PEdge} {V : List ℕ}
    (hend : ∀ e ∈ T, e.x ∈ V ∧ e.y ∈ V) {p : ℕ × ℕ}
    (hp : p ∈ (treePairs T).toFinset) : p.1 ∈ V ∧ p.2 ∈ V := by
  rw [List.mem_toFinset, treePairs, List.mem_map] at hp
  obtain ⟨e, he, rfl⟩ := hp
  obtain ⟨h1, h2⟩ := hend e he
  rw [normPair]
  split_ifs
  · exact ⟨h1, h2⟩
  · exact ⟨h2, h1⟩

theorem treePairs_sub {h : GraphStore} {T : List PEdge}
    (hok : ∀ e ∈ T, hasEdge h e.x e.y = true ∧ e.w = minW h e.x e.y) :
    (treePairs T).toFinset ⊆ pairFinset h := by
  intro p hp
  rw [List.mem_toFinset, treePairs, List.mem_map] at hp
  obtain ⟨e, he, rfl⟩ := hp
  rw [pairFinset, List.mem_toFinset]
  exact mem_pairList.mpr (Or.inl (hok e he).1)

theorem saturated_closed {h : GraphStore} {V : List ℕ}
    (hsat : primCandidates h V = []) :
    ∀ x ∈ V, ∀ y ∈ h.ids, hasEdge h x y = true → y ∈ V := by
  intro x hx y hy he
  by_contra hny
  have hmem : (⟨x, y, minW h x y⟩ : PEdge) ∈ primCandidates h V :=
    primCandidates_mem.mpr ⟨hx, hy, hny, he, rfl⟩
  rw [hsat] at hmem
  exact absurd hmem (List.not_mem_nil _)

theorem closed_reach {h : GraphStore} (hsym : HSym h) (hwf : h.WF) {V : List ℕ}
    (hcl : ∀ x ∈ V, ∀ y ∈ h.ids, hasEdge h x y = true → y ∈ V)
    {a b : ℕ} (ha : a ∈ V) (hr : ReachF (pairFinset h) a b) : b ∈ V := by
  induction hr with
  | refl => exact ha
  | tail hab hstep ih =>
    rename_i x y
    have key : ∀ u v : ℕ, (u, v) ∈ pairFinset h → u ∈ V → v ∈ V := by
      intro u v hm hu
      rw [pairFinset, List.mem_toFinset] at hm
      have hnorm := pairList_norm hm
      have hids := pairList_mem_ids hwf hm
      have hadj := mem_pairList.mp (hnorm ▸ hm)
      have he : hasEdge h u v = true := by
        rcases hadj with h1 | h1
        · exact h1
        · rw [(hsym u v).1]
          exact h1
      exact hcl u hu v hids.2 he
    rcases hstep with hm | hm
    · exact key x y hm ih
    · -- (y, x) ∈ pairFinset h and x ∈ V: use symmetry of the pair
      rw [pairFinset, List.mem_toFinset] at hm
      have hnorm := pairList_norm hm
      have hids := pairList_mem_ids hwf hm
      have hadj := mem_pairList.mp (hnorm ▸ hm)
      have he : hasEdge h x y = true := by
        rcases hadj with h1 | h1
        · rw [(hsym x y).1]
          exact h1
        · exact h1
      exact hcl x ih y hids.1 he

theorem acyclic_insert {Tset : Finset (ℕ × ℕ)} {V : List ℕ}
    (hcomp : ∀ p ∈ Tset, p.1 ∈ V ∧ p.2 ∈ V)
    (hac : AcyclicF Tset) {x y : ℕ} (hx : x ∈ V) (hy : y ∉ V) :
    AcyclicF (insert (normPair x y) Tset) := by
  have hiso : ∀ (S : Finset (ℕ × ℕ)), S ⊆ Tset →
      ∀ q ∈ S, q.1 ≠ y ∧ q.2 ≠ y := by
    intro S hS q hq
    obtain ⟨h1, h2⟩ := hcomp q (hS hq)
    exact ⟨fun he => hy (he ▸ h1), fun he => hy (he ▸ h2)⟩
  have hqT : normPair x y ∉ Tset := by
    intro hmem
    rcases normPair_comps x y with ⟨e1, e2⟩ | ⟨e1, e2⟩
    · exact (hiso Tset (fun _ hm => hm) _ hmem).2 e2
    · exact (hiso Tset (fun _ hm => hm) _ hmem).1 e1
  have hxy : x ≠ y := fun he => hy (he ▸ hx)
  intro p hp
  rcases Finset.mem_insert.mp hp with rfl | hpT
  · rw [Finset.erase_insert hqT]
    intro hreach
    rcases normPair_comps x y with ⟨e1, e2⟩ | ⟨e1, e2⟩
    · rw [e1, e2] at hreach
      exact hxy (reachF_isolated (hiso Tset fun _ hm => hm)
        (reachF_symm hreach)).symm
    · rw [e1, e2] at hreach
      exact hxy (reachF_isolated (hiso Tset fun _ hm => hm) hreach).symm
  · have hpq : normPair x y ≠ p := by
      intro he
      exact hqT (he ▸ hpT)
    rw [Finset.erase_insert_of_ne hpq]
    intro hreach
    obtain ⟨hp1, hp2⟩ := hcomp p hpT
    have hisoe := hiso (Tset.erase p) (Finset.erase_subset p Tset)
    rcases reachF_insert_iff.mp hreach with hr | ⟨h1, h2⟩ | ⟨h1, h2⟩
    · exact hac p hpT hr
    · rcases normPair_comps x y with ⟨e1, e2⟩ | ⟨e1, e2⟩
      · rw [e2] at h2
        exact hy ((reachF_isolated hisoe h2).symm ▸ hp2)
      · rw [e1] at h1
        exact hy ((reachF_isolated hisoe (reachF_symm h1)).symm ▸ hp1)
    · rcases normPair_comps x y with ⟨e1, e2⟩ | ⟨e1, e2⟩
      · rw [e2] at h1
        exact hy ((reachF_isolated hisoe (reachF_symm h1)).symm ▸ hp1)
      · rw [e1] at h2
        exact hy ((reachF_isolated hisoe h2).symm ▸ hp2)

theorem minimal_step {h : GraphStore} (hsym : HSym h) (hwf : h.WF)
    {V : List ℕ} {T : List PEdge} {e : PEdge}
    (hpick : pickMinP (primCandidates h V) = some e)
    (hend : ∀ p ∈ (treePairs T).toFinset, p.1 ∈ V ∧ p.2 ∈ V)
    (hM : ∃ M : Finset (ℕ × ℕ), (treePairs T).toFinset ⊆ M ∧ M ⊆ pairFinset h ∧
      SpanningF h M ∧ ∀ F ⊆ pairFinset h, SpanningF h F → weightF h M ≤ weightF h F) :
    ∃ M : Finset (ℕ × ℕ), (treePairs (T ++ [e])).toFinset ⊆ M ∧ M ⊆ pairFinset h ∧
      SpanningF h M ∧ ∀ F ⊆ pairFinset h, SpanningF h F → weightF h M ≤ weightF h F := by
  obtain ⟨M, hTM, hMp, hMs, hMmin⟩ := hM
  obtain ⟨hx, hy, hny, hedge, hw⟩ := primCandidates_mem.mp (pickMinP_mem hpick)
  have hqpairs : normPair e.x e.y ∈ pairFinset h := by
    rw [pairFinset, List.mem_toFinset]
    exact mem_pairList.mpr (Or.inl hedge)
  rw [treePairs_append_toFinset]
  by_cases hqM : normPair e.x e.y ∈ M
  · exact ⟨M, Finset.insert_subset hqM hTM, hMp, hMs, hMmin⟩
  · have hrM : ReachF M e.x e.y :=
      (hMs e.x e.y).mp (reachF_adj (adjF_of_normPair_mem hqpairs))
    obtain ⟨f, hfM, a, b, hor, ha, hb, hr1, hr2⟩ :=
      reachF_crossing (fun v => v ∈ V) hrM hx hny
    have hfpairs : f ∈ pairList h := by
      rw [← List.mem_toFinset]
      exact hMp hfM
    have hfids := pairList_mem_ids hwf hfpairs
    have hfnorm := pairList_norm hfpairs
    have hadjf := mem_pairList.mp (hfnorm ▸ hfpairs)
    have hab : hasEdge h a b = true := by
      rcases hor with rfl | rfl
    -- f = (a, b) or f = (b, a); in both cases symmetry reduces to one direction
      · rcases hadjf with h1 | h1
        · exact h1
        · rw [(hsym a b).1]
          exact h1
      · rcases hadjf with h1 | h1
        · rw [(hsym a b).1]
          exact h1
        · exact h1
    have hbids : b ∈ h.ids := by
      rcases hor with rfl | rfl
      · exact hfids.2
      · exact hfids.1
    have hcand : (⟨a, b, minW h a b⟩ : PEdge) ∈ primCandidates h V :=
      primCandidates_mem.mpr ⟨ha, hbids, hb, hab, rfl⟩
    have hle : e.w ≤ minW h a b := pickMinP_le hpick _ hcand
    have hwf2 : pairW h f = minW h a b := by
      rcases hor with rfl | rfl
      · have : (a, b) = normPair a b := hfnorm
        rw [this, pairW_normPair hsym hab]
      · have hba : hasEdge h b a = true := by
          rw [← (hsym a b).1]
          exact hab
        have : (b, a) = normPair b a := hfnorm
        rw [this, pairW_normPair hsym hba, (hsym b a).2]
    have hwq : pairW h (normPair e.x e.y) = e.w := by
      rw [pairW_normPair hsym hedge, hw]
    have hfT : f ∉ (treePairs T).toFinset := by
      intro hmem
      obtain ⟨h1, h2⟩ := hend f hmem
      rcases hor with rfl | rfl
      · exact hb h2
      · exact hb h1
    have hTMe : (treePairs T).toFinset ⊆ M.erase f := by
      intro p hp
      refine Finset.mem_erase.mpr ⟨?_, hTM hp⟩
      intro he2
      exact hfT (he2 ▸ hp)
    have hqMe : normPair e.x e.y ∉ M.erase f :=
      fun hmem => hqM (Finset.mem_of_mem_erase hmem)
    refine ⟨insert (normPair e.x e.y) (M.erase f), ?_, ?_, ?_, ?_⟩
    · exact Finset.insert_subset_insert _ hTMe
    · refine Finset.insert_subset hqpairs ?_
      exact fun p hp => hMp (Finset.mem_of_mem_erase hp)
    · -- same partition as before
      have hsub : M.erase f ⊆ insert (normPair e.x e.y) (M.erase f) :=
        Finset.subset_insert _ _
      have hreach_ab : ReachF (insert (normPair e.x e.y) (M.erase f)) a b := by
        have s1 : ReachF (insert (normPair e.x e.y) (M.erase f)) a e.x :=
          reachF_mono hsub (reachF_symm hr1)
        have s2 : ReachF (insert (normPair e.x e.y) (M.erase f)) e.x e.y :=
          reachF_adj (adjF_of_normPair_mem (Finset.mem_insert_self _ _))
        have s3 : ReachF (insert (normPair e.x e.y) (M.erase f)) e.y b :=
          reachF_mono hsub (reachF_symm hr2)
        exact reachF_trans (reachF_trans s1 s2) s3
      have hMle : ∀ u v : ℕ, ReachF M u v →
          ReachF (insert (normPair e.x e.y) (M.erase f)) u v := by
        intro u v hr
        refine reachF_le_of_pairs ?_ hr
        intro p hp
        by_cases hpf : p = f
        · subst hpf
          rcases hor with rfl | rfl
          · exact hreach_ab
          · exact reachF_symm hreach_ab
        · exact reachF_adj (Or.inl (Finset.mem_insert_of_mem (Finset.mem_erase.mpr ⟨hpf, hp⟩)))
      have hMge : ∀ u v : ℕ, ReachF (insert (normPair e.x e.y) (M.erase f)) u v →
          ReachF M u v := by
        intro u v hr
        refine reachF_le_of_pairs ?_ hr
        intro p hp
        rcases Finset.mem_insert.mp hp with rfl | hp2
        · exact reachF_normPair hrM
        · exact reachF_adj (Or.inl (Finset.mem_of_mem_erase hp2))
      intro u v
      rw [hMs u v]
      exact ⟨hMle u v, hMge u v⟩
    · intro F hF hFs
      have hw1 : weightF h (insert (normPair e.x e.y) (M.erase f)) =
          pairW h (normPair e.x e.y) + weightF h (M.erase f) := by
        rw [weightF, Finset.sum_insert hqMe]
        rfl
      have hw2 : pairW h f + weightF h (M.erase f) = weightF h M := by
        rw [weightF, weightF]
        exact Finset.add_sum_erase M (pairW h) hfM
      have hle2 : weightF h (insert (normPair e.x e.y) (M.erase f)) ≤ weightF h M := by
        rw [hw1, ← hw2, hwq, hwf2]
        exact add_le_add_right hle _
      exact hle2.trans (hMmin F hF hFs)

theorem primInv_step {h : GraphStore} (hsym : HSym h) (hwf : h.WF)
    {V : List ℕ} {T : List PEdge} {A : List ℕ} {e : PEdge}
    (inv : PrimInv h V T A)
    (hpick : pickMinP (primCandidates h V) = some e) :
    PrimInv h (V ++ [e.y]) (T ++ [e]) A := by
  obtain ⟨hx, hy, hny, hedge, hw⟩ := primCandidates_mem.mp (pickMinP_mem hpick)
  have hqT : normPair e.x e.y ∉ treePairs T := by
    intro hmem
    have := treePairs_comp inv.endpoints (List.mem_toFinset.mpr hmem)
    rcases normPair_comps e.x e.y with ⟨e1, e2⟩ | ⟨e1, e2⟩
    · exact hny (e2 ▸ this.2)
    · exact hny (e1 ▸ this.1)
  constructor
  · intro v hv
    rcases List.mem_append.mp hv with hv1 | hv1
    · exact inv.subV v hv1
    · rw [List.mem_singleton] at hv1
      exact hv1 ▸ hy
  · rw [List.nodup_append]
    exact ⟨inv.nodupV, List.nodup_singleton _,
      fun a ha hb => hny ((List.mem_singleton.mp hb) ▸ ha)⟩
  · simp only [List.length_append, List.length_cons, List.length_nil]
    have := inv.count
    omega
  · intro e2 he2
    rcases List.mem_append.mp he2 with he3 | he3
    · obtain ⟨h1, h2⟩ := inv.endpoints e2 he3
      exact ⟨List.mem_append.mpr (Or.inl h1), List.mem_append.mpr (Or.inl h2)⟩
    · rw [List.mem_singleton] at he3
      subst he3
      exact ⟨List.mem_append.mpr (Or.inl hx),
        List.mem_append.mpr (Or.inr (List.mem_singleton.mpr rfl))⟩
  · intro e2 he2
    rcases List.mem_append.mp he2 with he3 | he3
    · exact inv.edgesOk e2 he3
    · rw [List.mem_singleton] at he3
      subst he3
      exact ⟨hedge, hw⟩
  · rw [treePairs, List.map_append, List.nodup_append]
    refine ⟨inv.nodupT, List.nodup_singleton _, ?_⟩
    intro p hp hq
    rw [List.map_cons, List.map_nil, List.mem_singleton] at hq
    subst hq
    exact hqT hp
  · rw [treePairs_append_toFinset]
    exact acyclic_insert (fun p hp => treePairs_comp inv.endpoints hp)
      inv.acyclic hx hny
  · intro v hv
    rw [treePairs_append_toFinset]
    rcases List.mem_append.mp hv with hv1 | hv1
    · obtain ⟨r, hr, hrv⟩ := inv.connect v hv1
      exact ⟨r, hr, reachF_mono (Finset.subset_insert _ _) hrv⟩
    · rw [List.mem_singleton] at hv1
      subst hv1
      obtain ⟨r, hr, hrv⟩ := inv.connect e.x hx
      refine ⟨r, hr, ?_⟩
      refine reachF_trans (reachF_mono (Finset.subset_insert _ _) hrv) ?_
      exact reachF_adj (adjF_of_normPair_mem (Finset.mem_insert_self _ _))
  · intro r hr
    exact List.mem_append.mpr (Or.inl (inv.subA r hr))
  · exact inv.nodupA
  · exact inv.sep
  · exact minimal_step hsym hwf hpick
      (fun p hp => treePairs_comp inv.endpoints hp) inv.minimal

theorem primInner_spec {h : GraphStore} (hsym : HSym h) (hwf : h.WF) :
    ∀ (fuel : ℕ) (V : List ℕ) (T : List PEdge) (A : List ℕ),
      PrimInv h V T A →
      PrimInv h (primInner h fuel V T).1 (primInner h fuel V T).2 A ∧
      (∀ v ∈ V, v ∈ (primInner h fuel V T).1) ∧
      (h.ids.length ≤ fuel + V.length →
        primCandidates h (primInner h fuel V T).1 = []) := by
  intro fuel
  induction fuel with
  | zero =>
    intro V T A inv
    refine ⟨inv, fun v hv => hv, ?_⟩
    intro hlen
    rw [List.eq_nil_iff_forall_not_mem]
    intro e he
    obtain ⟨-, hy, hny, -, -⟩ := primCandidates_mem.mp he
    have hsub : V.Subperm h.ids :=
      List.subperm_of_subset inv.nodupV fun v hv => inv.subV v hv
    have hperm : V.Perm h.ids := hsub.perm_of_length_le (by simpa using hlen)
    exact hny (hperm.mem_iff.mpr hy)
  | succ fuel ih =>
    intro V T A inv
    rw [primInner]
    cases hpick : pickMinP (primCandidates h V) with
    | none =>
      exact ⟨inv, fun v hv => hv, fun _ => pickMinP_none.mp hpick⟩
    | some e =>
      have hstep := primInv_step hsym hwf inv hpick
      obtain ⟨inv2, hmono, hsat⟩ := ih (V ++ [e.y]) (T ++ [e]) A hstep
      refine ⟨inv2, ?_, ?_⟩
      · intro v hv
        exact hmono v (List.mem_append.mpr (Or.inl hv))
      · intro hlen
        refine hsat ?_
        simp only [List.length_append, List.length_cons, List.length_nil] at hlen ⊢
        omega

theorem primOuter_spec {h : GraphStore} (hsym : HSym h) (hwf : h.WF) :
    ∀ (order V : List ℕ) (T : List PEdge) (A : List ℕ),
      (∀ r ∈ order, r ∈ h.ids) →
      PrimInv h V T A →
      primCandidates h V = [] →
      PrimInv h (primOuter h order V T A).1 (primOuter h order V T A).2.1
        (primOuter h order V T A).2.2 ∧
      (∀ v ∈ V, v ∈ (primOuter h order V T A).1) ∧
      (∀ r ∈ order, r ∈ (primOuter h order V T A).1) ∧
      primCandidates h (primOuter h order V T A).1 = [] := by
  intro order
  induction order with
  | nil =>
    intro V T A horder inv hsat
    exact ⟨inv, fun v hv => hv, by simp, hsat⟩
  | cons r rest ih =>
    intro V T A horder inv hsat
    simp only [primOuter]
    by_cases hrV : V.contains r = true
    · rw [if_pos hrV]
      obtain ⟨inv2, hVmono, hrest, hsat2⟩ := ih V T A
        (fun x hx => horder x (List.mem_cons_of_mem r hx)) inv hsat
      refine ⟨inv2, hVmono, ?_, hsat2⟩
      intro x hx
      rcases List.mem_cons.mp hx with rfl | hx2
      · exact hVmono x (List.mem_of_elem_eq_true hrV)
      · exact hrest x hx2
    · rw [if_neg hrV]
      have hrnV : r ∉ V := fun hmem => hrV (List.elem_eq_true_of_mem hmem)
      have hrids : r ∈ h.ids := horder r (List.mem_cons_self r rest)
      have hrA : r ∉ A := fun hmem => hrnV (inv.subA r hmem)
      have inv1 : PrimInv h (V ++ [r]) T (A ++ [r]) := by
        constructor
        · intro v hv
          rcases List.mem_append.mp hv with hv1 | hv1
          · exact inv.subV v hv1
          · rw [List.mem_singleton] at hv1
            exact hv1 ▸ hrids
        · rw [List.nodup_append]
          exact ⟨inv.nodupV, List.nodup_singleton _,
            fun a ha hb => hrnV ((List.mem_singleton.mp hb) ▸ ha)⟩
        · simp only [List.length_append, List.length_cons, List.length_nil]
          have := inv.count
          omega
        · intro e he
          obtain ⟨h1, h2⟩ := inv.endpoints e he
          exact ⟨List.mem_append.mpr (Or.inl h1), List.mem_append.mpr (Or.inl h2)⟩
        · exact inv.edgesOk
        · exact inv.nodupT
        · exact inv.acyclic
        · intro v hv
          rcases List.mem_append.mp hv with hv1 | hv1
          · obtain ⟨r2, hr2, hrv⟩ := inv.connect v hv1
            exact ⟨r2, List.mem_append.mpr (Or.inl hr2), hrv⟩
          · rw [List.mem_singleton] at hv1
            subst hv1
            exact ⟨v, List.mem_append.mpr (Or.inr (List.mem_singleton.mpr rfl)),
              reachF_refl⟩
        · intro r2 hr2
          rcases List.mem_append.mp hr2 with hr3 | hr3
          · exact List.mem_append.mpr (Or.inl (inv.subA r2 hr3))
          · rw [List.mem_singleton] at hr3
            exact List.mem_append.mpr (Or.inr (List.mem_singleton.mpr hr3))
        · rw [List.nodup_append]
          exact ⟨inv.nodupA, List.nodup_singleton _,
            fun a ha hb => hrA ((List.mem_singleton.mp hb) ▸ ha)⟩
        · rw [List.pairwise_append]
          refine ⟨inv.sep, List.pairwise_singleton _ _, ?_⟩
          intro a ha b hb
          rw [List.mem_singleton] at hb
          subst hb
          intro hreach
          exact hrnV (closed_reach hsym hwf (saturated_closed hsat)
            (inv.subA a ha) hreach)
        · exact inv.minimal
      obtain ⟨inv2, hmono2, hsat2⟩ :=
        primInner_spec hsym hwf h.ids.length (V ++ [r]) T (A ++ [r]) inv1
      have hsat3 : primCandidates h (primInner h h.ids.length (V ++ [r]) T).1 = [] :=
        hsat2 (by omega)
      obtain ⟨inv3, hVmono3, hrest3, hsat4⟩ := ih
        (primInner h h.ids.length (V ++ [r]) T).1
        (primInner h h.ids.length (V ++ [r]) T).2 (A ++ [r])
        (fun x hx => horder x (List.mem_cons_of_mem r hx)) inv2 hsat3
      refine ⟨inv3, ?_, ?_, hsat4⟩
      · intro v hv
        exact hVmono3 v (hmono2 v (List.mem_append.mpr (Or.inl hv)))
      · intro x hx
        rcases List.mem_cons.mp hx with rfl | hx2
        · exact hVmono3 x (hmono2 x
            (List.mem_append.mpr (Or.inr (List.mem_singleton.mpr rfl))))
        · exact hrest3 x hx2

/-! Counting connected components: any two transversals of the partition
have the same size. -/

theorem transversal_le (h : GraphStore) (ids A B : List ℕ) (hAnd : A.Nodup)
    (hAsub : ∀ a ∈ A, a ∈ ids)
    (hBcov : ∀ v ∈ ids, ∃ b ∈ B, ReachF (pairFinset h) b v)
    (hApair : A.Pairwise fun x y => ¬ReachF (pairFinset h) x y) :
    A.length ≤ B.length := by
  have hex : ∀ a : ℕ, ∃ b, a ∈ A → b ∈ B ∧ ReachF (pairFinset h) b a := by
    intro a
    by_cases ha : a ∈ A
    · obtain ⟨b, hb, hr⟩ := hBcov a (hAsub a ha)
      exact ⟨b, fun _ => ⟨hb, hr⟩⟩
    · exact ⟨0, fun hc => absurd hc ha⟩
  choose f hf using hex
  have hsymR : Symmetric fun x y => ¬ReachF (pairFinset h) x y :=
    fun x y hxy hr => hxy (reachF_symm hr)
  have hinj : ∀ a1 ∈ A, ∀ a2 ∈ A, f a1 = f a2 → a1 = a2 := by
    intro a1 h1 a2 h2 heq
    by_contra hne
    have hr1 := (hf a1 h1).2
    have hr2 := (hf a2 h2).2
    rw [heq] at hr1
    exact (hApair.forall hsymR) h1 h2 hne (reachF_trans (reachF_symm hr1) hr2)
  have hmapnd : (A.map f).Nodup := List.Nodup.map_on hinj hAnd
  have hsub2 : ∀ x ∈ A.map f, x ∈ B := by
    intro x hx
    obtain ⟨a, ha, rfl⟩ := List.mem_map.mp hx
    exact (hf a ha).1
  have hle := (List.subperm_of_subset hmapnd hsub2).length_le
  simpa using hle

theorem transversal_card (h : GraphStore) (ids A B : List ℕ)
    (hAnd : A.Nodup) (hBnd : B.Nodup)
    (hAsub : ∀ a ∈ A, a ∈ ids) (hBsub : ∀ b ∈ B, b ∈ ids)
    (hAcov : ∀ v ∈ ids, ∃ a ∈ A, ReachF (pairFinset h) a v)
    (hBcov : ∀ v ∈ ids, ∃ b ∈ B, ReachF (pairFinset h) b v)
    (hApair : A.Pairwise fun x y => ¬ReachF (pairFinset h) x y)
    (hBpair : B.Pairwise fun x y => ¬ReachF (pairFinset h) x y) :
    A.length = B.length :=
  le_antisymm (transversal_le h ids A B hAnd hAsub hBcov hApair)
    (transversal_le h ids B A hBnd hBsub hAcov hBpair)

open Classical in
theorem numComponents_eq_length (g : GraphStore) :
    numComponents g = (g.ids.dedup.filter fun v => decide (∀ u ∈ g.ids,
      ReachF (pairFinset (undirectedProjection g)) v u → v ≤ u)).length := rfl

open Classical in
theorem mem_repsList {g : GraphStore} (hwf : g.WF) {x : ℕ} :
    (x ∈ g.ids.dedup.filter fun v => decide (∀ u ∈ g.ids,
      ReachF (pairFinset (undirectedProjection g)) v u → v ≤ u)) ↔
      x ∈ g.ids ∧ ∀ u ∈ g.ids,
        ReachF (pairFinset (undirectedProjection g)) x u → x ≤ u := by
  rw [List.mem_filter, List.Nodup.dedup hwf.1]
  simp only [decide_eq_true_eq]

open Classical in
theorem repsList_cover {g : GraphStore} (hwf : g.WF) {v : ℕ} (hv : v ∈ g.ids) :
    ∃ b ∈ (g.ids.dedup.filter fun w => decide (∀ u ∈ g.ids,
      ReachF (pairFinset (undirectedProjection g)) w u → w ≤ u)),
      ReachF (pairFinset (undirectedProjection g)) b v := by
  classical
  have hvS : v ∈ g.ids.toFinset.filter (fun u =>
      ReachF (pairFinset (undirectedProjection g)) v u) :=
    Finset.mem_filter.mpr ⟨List.mem_toFinset.mpr hv, reachF_refl⟩
  have hne : (g.ids.toFinset.filter fun u =>
      ReachF (pairFinset (undirectedProjection g)) v u).Nonempty := ⟨v, hvS⟩
  have hmS := Finset.min'_mem _ hne
  obtain ⟨hmids, hmreach⟩ := Finset.mem_filter.mp hmS
  refine ⟨(g.ids.toFinset.filter fun u =>
      ReachF (pairFinset (undirectedProjection g)) v u).min' hne, ?_,
      reachF_symm hmreach⟩
  rw [mem_repsList hwf]
  refine ⟨List.mem_toFinset.mp hmids, ?_⟩
  intro u hu hru
  exact Finset.min'_le _ u (Finset.mem_filter.mpr ⟨List.mem_toFinset.mpr hu,
    reachF_trans hmreach hru⟩)

open Classical in
theorem repsList_pairwise {g : GraphStore} (hwf : g.WF) :
    (g.ids.dedup.filter fun w => decide (∀ u ∈ g.ids,
      ReachF (pairFinset (undirectedProjection g)) w u → w ≤ u)).Pairwise
      fun x y => ¬ReachF (pairFinset (undirectedProjection g)) x y := by
  have hnd : (g.ids.dedup.filter fun w => decide (∀ u ∈ g.ids,
      ReachF (pairFinset (undirectedProjection g)) w u → w ≤ u)).Nodup :=
    (List.nodup_dedup g.ids).filter _
  refine List.Pairwise.imp_of_mem ?_ hnd
  intro a b ha hb hne hreach
  obtain ⟨haid, hareps⟩ := (mem_repsList hwf).mp ha
  obtain ⟨hbid, hbreps⟩ := (mem_repsList hwf).mp hb
  have h1 : a ≤ b := hareps b hbid hreach
  have h2 : b ≤ a := hbreps a haid (reachF_symm hreach)
  exact hne (le_antisymm h1 h2)

theorem starts_card {g : GraphStore} (hwf : g.WF)
    {V : List ℕ} {T : List PEdge} {A : List ℕ}
    (inv : PrimInv (undirectedProjection g) V T A)
    (hVall : ∀ v ∈ g.ids, v ∈ V) :
    A.length = numComponents g := by
  rw [numComponents_eq_length]
  refine transversal_card (undirectedProjection g) g.ids A _ inv.nodupA
    ((List.nodup_dedup g.ids).filter _) ?_ ?_ ?_ ?_ inv.sep (repsList_pairwise hwf)
  · intro a ha
    exact inv.subV a (inv.subA a ha)
  · intro b hb
    exact ((mem_repsList hwf).mp hb).1
  · intro v hv
    obtain ⟨r, hr, hrv⟩ := inv.connect v (hVall v hv)
    exact ⟨r, hr, reachF_mono (treePairs_sub inv.edgesOk) hrv⟩
  · intro v hv
    exact repsList_cover hwf hv

theorem projNonneg {g : GraphStore} (hnn : g.Nonneg) :
    (undirectedProjection g).Nonneg := by
  intro e he
  rw [undirectedProjection, List.mem_flatMap] at he
  obtain ⟨p, hp, hpe⟩ := he
  rw [projEdges] at hpe
  split_ifs at hpe with hd
  · rw [List.mem_singleton] at hpe
    subst hpe
    exact uW_nonneg hnn _ _
  · rw [List.mem_cons, List.mem_singleton] at hpe
    rcases hpe with hpe | hpe
    · subst hpe
      exact uW_nonneg hnn _ _
    · subst hpe
      exact uW_nonneg hnn _ _

theorem primInv_init {g : GraphStore} (hwf : g.WF) :
    PrimInv (undirectedProjection g) [] [] [] := by
  classical
  constructor
  · intro v hv
    exact absurd hv (List.not_mem_nil v)
  · exact List.nodup_nil
  · rfl
  · intro e he
    exact absurd he (List.not_mem_nil e)
  · intro e he
    exact absurd he (List.not_mem_nil e)
  · exact List.nodup_nil
  · intro p hp
    exact absurd hp (by simp [treePairs])
  · intro v hv
    exact absurd hv (List.not_mem_nil v)
  · intro r hr
    exact absurd hr (List.not_mem_nil r)
  · exact List.nodup_nil
  · exact List.Pairwise.nil
  · obtain ⟨M, hM, hMmin⟩ := Finset.exists_min_image
      ((pairFinset (undirectedProjection g)).powerset.filter
        fun F => SpanningF (undirectedProjection g) F)
      (weightF (undirectedProjection g))
      ⟨pairFinset (undirectedProjection g), by
        rw [Finset.mem_filter, Finset.mem_powerset]
        exact ⟨subset_refl _, fun a b => Iff.rfl⟩⟩
    rw [Finset.mem_filter, Finset.mem_powerset] at hM
    refine ⟨M, by simp [treePairs], hM.1, hM.2, ?_⟩
    intro F hF hFs
    refine hMmin F ?_
    rw [Finset.mem_filter, Finset.mem_powerset]
    exact ⟨hF, hFs⟩

theorem prim_weight_list_eq {h : GraphStore} (hsym : HSym h) {T : List PEdge}
    (hok : ∀ e ∈ T, hasEdge h e.x e.y = true ∧ e.w = minW h e.x e.y)
    (hnd : (treePairs T).Nodup) :
    (T.map PEdge.w).sum = weightF h (treePairs T).toFinset := by
  rw [weightF, List.sum_toFinset _ hnd, treePairs, List.map_map]
  congr 1
  refine List.map_congr_left ?_
  intro e he
  obtain ⟨h1, h2⟩ := hok e he
  show e.w = pairW h (normPair e.x e.y)
  rw [pairW_normPair hsym h1, h2]

/-- C2 (claims file): for every non-empty well-formed store with
non-negative weights, the Prim routine (`arbol_expansion_minima_prim`),
which operates on the store's undirected projection, succeeds and
returns a spanning-forest edge list whose unordered pairs are pairwise
distinct and acyclic, whose length is exactly the number of nodes minus
the number of connected components of the projection, and whose total
weight is minimal among all subsets of the projection's pair set that
induce the same connected-component partition (in particular among all
spanning forests). -/
theorem prim_spec (g : GraphStore) (hne : g.nodes ≠ []) (hwf : g.WF)
    (hnn : g.Nonneg) :
    ∃ T : List PEdge, arbol_expansion_minima_prim g = .ok T ∧
      AcyclicF (treePairs T).toFinset ∧
      (treePairs T).Nodup ∧
      T.length + numComponents g = g.nodes.length ∧
      ∀ F ⊆ pairFinset (undirectedProjection g),
        SpanningF (undirectedProjection g) F →
        (T.map PEdge.w).sum ≤ weightF (undirectedProjection g) F := by
  have hsym := projSym g
  have hwf2 := projWF hwf
  have hempty : g.nodes.isEmpty = false := by
    cases hng : g.nodes with
    | nil => exact absurd hng hne
    | cons a l => rfl
  obtain ⟨inv, hVmono, hVall, hsat⟩ :=
    primOuter_spec hsym hwf2 (undirectedProjection g).ids [] [] []
      (fun r hr => hr) (primInv_init hwf) rfl
  refine ⟨(primOuter (undirectedProjection g) (undirectedProjection g).ids
    [] [] []).2.1, ?_, inv.acyclic, inv.nodupT, ?_, ?_⟩
  · rw [arbol_expansion_minima_prim, if_neg]
    rw [hempty]
    exact Bool.false_ne_true
  · -- edge count
    have hlen1 : (primOuter (undirectedProjection g)
        (undirectedProjection g).ids [] [] []).1.length = g.ids.length := by
      refine le_antisymm ?_ ?_
      · exact (List.subperm_of_subset inv.nodupV fun v hv => inv.subV v hv).length_le
      · exact (List.subperm_of_subset hwf.1 fun v hv => hVall v hv).length_le
    have hcount := inv.count
    have hstarts := starts_card hwf inv hVall
    have hids : g.ids.length = g.nodes.length := by
      rw [GraphStore.ids, List.length_map]
    omega
  · intro F hF hFs
    obtain ⟨M, hTM, hMp, hMs, hMmin⟩ := inv.minimal
    have hw1 := prim_weight_list_eq hsym inv.edgesOk inv.nodupT
    rw [hw1]
    have hw2 : weightF (undirectedProjection g)
        (treePairs (primOuter (undirectedProjection g)
          (undirectedProjection g).ids [] [] []).2.1).toFinset ≤
        weightF (undirectedProjection g) M := by
      rw [weightF, weightF]
      exact Finset.sum_le_sum_of_subset_of_nonneg hTM
        fun p _ _ => pairW_nonneg (projNonneg hnn) p
    exact hw2.trans (hMmin F hF hFs)

/-- Witness for C2: the Prim contract instantiated at the concrete
three-node store with edges 1-2 (weight 1), 2-3 (weight 1) and
1-3 (weight 5). -/
theorem prim_spec_witness :
    gEx.nodes ≠ [] ∧ gEx.WF ∧ gEx.Nonneg ∧
    ∃ T : List PEdge, arbol_expansion_minima_prim gEx = .ok T ∧
      AcyclicF (treePairs T).toFinset ∧
      (treePairs T).Nodup ∧
      T.length + numComponents gEx = gEx.nodes.length ∧
      ∀ F ⊆ pairFinset (undirectedProjection gEx),
        SpanningF (undirectedProjection gEx) F →
        (T.map PEdge.w).sum ≤ weightF (undirectedProjection gEx) F :=
  ⟨List.cons_ne_nil _ _, gEx_wf, gEx_nonneg,
    prim_spec gEx (List.cons_ne_nil _ _) gEx_wf gEx_nonneg⟩
